import Mathlib

/-!
Verification of the WikiTOCanalyzer outline-diffing engine (`src/app.py`).

Python strings are modelled as `List Char`; Python floats as `ℚ` (exact
arithmetic); Python dicts as insertion-ordered association lists with
replace-in-place update; Python sets as duplicate-free lists whose order
stands for the (arbitrary) set iteration order.  Theorems quantifying over
all list inputs therefore cover all possible set iteration orders.
-/

namespace WikiTOC

/-- Python strings are modelled as lists of characters. -/
abbrev Str := List Char

/-- The whitespace characters stripped by Python's `str.strip()`
(restricted to the ASCII whitespace set). -/
def isPySpace (c : Char) : Bool :=
  c = ' ' || c = '\t' || c = '\n' || c = '\r' || c = '\x0b' || c = '\x0c'

/-- Drop the longest suffix of `l` whose characters satisfy `p`. -/
def dropTailWhile (p : Char → Bool) (l : Str) : Str :=
  (l.reverse.dropWhile p).reverse

/-- Python `str.strip(chars)`: remove characters satisfying `p` from both ends. -/
def pyStrip (p : Char → Bool) (l : Str) : Str :=
  dropTailWhile p (l.dropWhile p)

/-- Python `str.strip()` (no argument): strip whitespace from both ends. -/
def trimWS (l : Str) : Str := pyStrip isPySpace l

/-- Python `str.strip('=')`: strip equals signs from both ends. -/
def stripEq (l : Str) : Str := pyStrip (fun c => c = '=') l

/-- Python `wikitext.split('\n')`. -/
def splitOnNl : Str → List Str
  | [] => [[]]
  | c :: rest =>
    match splitOnNl rest with
    | [] => [[c]]
    | h :: t => if c = '\n' then [] :: h :: t else (c :: h) :: t

/-- A section record as produced by `extract_toc` and annotated by
`process_revision_history`.  The Python code stores these as dicts; the
`isNew` / `isRenamed` / `previousTitle` keys are absent until the
annotation step sets them, which we model by `false` / `none` defaults. -/
structure Section where
  title : Str
  level : Nat
  raw_level : Nat
  isNew : Bool := false
  isRenamed : Bool := false
  previousTitle : Option Str := none
deriving DecidableEq, Repr

/-- A trimmed line qualifies as a heading when it starts and ends with
`==` (`line.startswith('==') and line.endswith('==')` in `extract_toc`). -/
def qualifies (t : Str) : Bool :=
  t.take 2 = ['=', '='] && t.reverse.take 2 = ['=', '=']

/-- One update of `current_level_stack` in `extract_toc` (the stack's top
is the list head).  Returns the corrected `level` and the new stack. -/
def tocStep : List Nat → Nat → Nat × List Nat
  | [], r => (1, [r])
  | t :: rest, r =>
    if t < r then ((t :: rest).length + 1, r :: t :: rest)
    else
      let popped := (t :: rest).dropWhile (fun x => r ≤ x)
      (popped.length + 1, r :: popped)

/-- Parser state: sections emitted so far and the current level stack. -/
structure TocState where
  sections : List Section
  stack : List Nat
deriving Repr

/-- The title computed by `extract_toc` for a line: the trimmed line
stripped of equals signs and then of whitespace
(`line.strip('=').strip()`). -/
def lineTitle (l : Str) : Str := trimWS (stripEq (trimWS l))

/-- The `raw_level` computed by `extract_toc` for a line:
`(len(line) - len(title)) // 2` on the trimmed line. -/
def lineRawLevel (l : Str) : Nat := ((trimWS l).length - (lineTitle l).length) / 2

/-- Processing of one line of the loop body of `extract_toc`.  Note that
the stack update happens before the `if title:` emptiness test, exactly as
in the source. -/
def tocLine (st : TocState) (line : Str) : TocState :=
  if qualifies (trimWS line) then
    let p := tocStep st.stack (lineRawLevel line)
    if (lineTitle line).isEmpty then { st with stack := p.2 }
    else { sections := st.sections ++
             [{ title := lineTitle line, level := p.1, raw_level := lineRawLevel line }],
           stack := p.2 }
  else st

/-- The body of `extract_toc` acting on an already-split list of lines. -/
def extractTocLines (lines : List Str) : List Section :=
  (lines.foldl tocLine ⟨[], []⟩).sections

/-- Python `extract_toc(wikitext)`. -/
def extract_toc (wikitext : Str) : List Section :=
  extractTocLines (splitOnNl wikitext)

/-- Length of the run of marker characters at the front of a trimmed line. -/
def markerRunLen (t : Str) : Nat := (t.takeWhile (fun c => c = '=')).length

/-- Modelled from the spec's words for claim C6: the total number of marker
characters on both sides of a heading line (leading run plus trailing run).
The claim asserts `rawLevel` equals this quantity divided by two. -/
def totalMarkerChars (t : Str) : Nat := markerRunLen t + markerRunLen t.reverse

/-! ## Change Significance Scorer -/

/-- One element of a sections list as seen by the significance scorer:
either not a dict at all, or a dict whose `"title"` / `"level"` keys may be
absent (`none`).  Titles are modelled as strings and levels as integers. -/
inductive SecVal where
  | nondict
  | dict (title : Option Str) (level : Option Int)
deriving DecidableEq, Repr

/-- A Python value passed as a sections argument: either not a list at all
(any non-list, non-`None` value), or a list of items. -/
inductive PySecs where
  | other
  | list (xs : List SecVal)
deriving DecidableEq, Repr

/-- Adding an element to a Python set, modelled as a duplicate-free list in
first-insertion order. -/
def insertSet (l : List Str) (t : Str) : List Str :=
  if t ∈ l then l else l ++ [t]

/-- Build a set (duplicate-free list) from a list of elements. -/
def setOf (l : List Str) : List Str := l.foldl insertSet []

/-- The title values of the dict items that have a `"title"` key
(the comprehension `{s.get("title","") for s in xs if isinstance(s, dict)
and "title" in s}` before set formation). -/
def valsTitles (xs : List SecVal) : List Str :=
  xs.filterMap (fun v => match v with
    | .dict (some t) _ => some t
    | _ => none)

/-- The level recorded for title `t` by the lookup-dict comprehension
`{s.get("title",""): s.get("level",0) for s in xs ...}`: the level of the
last dict item carrying that title (later entries override earlier ones),
with 0 when the `"level"` key is absent. -/
def lookupLevel (xs : List SecVal) (t : Str) : Int :=
  match xs.reverse.find? (fun v => match v with
    | .dict (some t') _ => decide (t' = t)
    | _ => false) with
  | some (.dict _ lvl) => lvl.getD 0
  | _ => 0

/-- Join a list of strings with `", "` (Python `", ".join(summary)`). -/
def joinComma (ps : List Str) : Str := (ps.intersperse ", ".toList).flatten

/-- Python `calculate_toc_change_significance(current_sections,
previous_sections)`.  Returns the significance score (a rational, standing
for the Python float computed with exact arithmetic) and the change
summary.  The model is total, mirroring the function's fail-soft behaviour:
every malformed-input branch of the source returns a neutral score rather
than raising, and inside the `try` block no operation on the modelled
values can raise. -/
def calculate_toc_change_significance (current_sections : PySecs)
    (previous_sections : Option PySecs) : ℚ × Str :=
  match previous_sections with
  | none => (10, "Initial version".toList)
  | some prev =>
    match current_sections with
    | .other => (5, "Invalid current sections data".toList)
    | .list cs =>
      if cs.isEmpty then (5, "Invalid current sections data".toList)
      else
        match prev with
        | .other => (5, "Invalid previous sections data".toList)
        | .list ps =>
          if ps.isEmpty then (5, "Invalid previous sections data".toList)
          else
            let current_set := setOf (valsTitles cs)
            let previous_set := setOf (valsTitles ps)
            if current_set.isEmpty || previous_set.isEmpty then
              (5, "Empty section data".toList)
            else
              let added := current_set.filter (fun t => decide (t ∉ previous_set))
              let removed := previous_set.filter (fun t => decide (t ∉ current_set))
              let total_changes := added.length + removed.length
              let common := current_set.filter (fun t => decide (t ∈ previous_set))
              let hierarchy_changes := (common.filter (fun t =>
                decide (lookupLevel cs t ≠ lookupLevel ps t))).length
              let significance : ℚ :=
                min 10 (((total_changes : ℚ) * 2 + (hierarchy_changes : ℚ) * 3) / 2)
              let parts : List Str :=
                (if added.isEmpty then [] else
                  ["Added ".toList ++ (toString added.length).toList ++ " section(s)".toList]) ++
                (if removed.isEmpty then [] else
                  ["Removed ".toList ++ (toString removed.length).toList ++ " section(s)".toList]) ++
                (if hierarchy_changes = 0 then [] else
                  ["Changed level of ".toList ++ (toString hierarchy_changes).toList ++
                    " section(s)".toList])
              let change_summary :=
                if parts.isEmpty then "Minor changes".toList else joinComma parts
              (significance, change_summary)

/-- The malformed/empty-input conditions of the scorer, exactly the branch
conditions of the source that short-circuit to the neutral score: a
non-list argument, an empty list, or a list yielding no titled dict items. -/
def malformedSig (curr : PySecs) (prev : PySecs) : Bool :=
  match curr with
  | .other => true
  | .list cs =>
    cs.isEmpty ||
      match prev with
      | .other => true
      | .list ps =>
        ps.isEmpty || (setOf (valsTitles cs)).isEmpty || (setOf (valsTitles ps)).isEmpty

/-! ## Title Similarity Scorer

The source computes `SequenceMatcher(None, a.lower(), b.lower()).ratio()`.
We embed CPython's `difflib.SequenceMatcher` for that call site: `isjunk`
is `None`, so `bjunk` is empty and the two junk-extension loops of
`find_longest_match` never execute (they are omitted); `autojunk` is the
default `True`, so when `b` has at least 200 characters the characters
occurring more than `len(b)//100 + 1` times are dropped from `b2j`. -/

/-- Python `str.lower()`, modelled per character. -/
def strLower (s : Str) : Str := s.map Char.toLower

/-- The list of positions of character `c` in `b`, ascending — `b2j`
before autojunk handling. -/
def b2jAll (b : Str) (c : Char) : List Nat :=
  (List.range b.length).filter (fun j => decide (b.get? j = some c))

/-- difflib autojunk: with `b` of length at least 200, a character is
popular when it occurs more than `len(b) // 100 + 1` times. -/
def isPopular (b : Str) (c : Char) : Bool :=
  decide (200 ≤ b.length) && decide (b.length / 100 + 1 < b.count c)

/-- The `b2j` mapping used by `find_longest_match`: positions of `c` in
`b`, with popular characters dropped entirely. -/
def b2j (b : Str) (c : Char) : List Nat :=
  if isPopular b c then [] else b2jAll b c

/-- The running best block of `find_longest_match`. -/
structure FLMBest where
  besti : Nat
  bestj : Nat
  bestsize : Nat
deriving DecidableEq, Repr

/-- The body of the inner `for j in b2j.get(a[i], nothing)` loop of
`find_longest_match`: `k = newj2len[j] = j2len.get(j-1, 0) + 1`, update the
best block when `k > bestsize` (`j2len.get(-1, 0)` is 0, covered by the
`j = 0` case).  `oldJ` is the `j2len` of the previous line; the state
carries the best block and the `newj2len` being built. -/
def flmJ (i : Nat) (oldJ : Nat → Nat) (st : FLMBest × (Nat → Nat)) (j : Nat) :
    FLMBest × (Nat → Nat) :=
  let k := (if j = 0 then 0 else oldJ (j - 1)) + 1
  let best := if st.1.bestsize < k then ⟨i + 1 - k, j + 1 - k, k⟩ else st.1
  (best, fun x => if x = j then k else st.2 x)

/-- One iteration of the outer `for i in range(alo, ahi)` loop of
`find_longest_match`.  `j2len` starts empty (`newj2len = {}`) and the old
one is read; since `b2j` position lists are ascending, the `j < blo:
continue` / `j >= bhi: break` guards amount to restricting to the window. -/
def flmLine (a b : Str) (blo bhi : Nat) (st : FLMBest × (Nat → Nat)) (i : Nat) :
    FLMBest × (Nat → Nat) :=
  let js := (b2j b (a.getD i ' ')).filter (fun j => decide (blo ≤ j) && decide (j < bhi))
  js.foldl (flmJ i st.2) (st.1, fun _ => 0)

/-- The dynamic-programming phase of `find_longest_match`. -/
def flmLoop (a b : Str) (alo ahi blo bhi : Nat) : FLMBest :=
  ((List.range' alo (ahi - alo)).foldl (flmLine a b blo bhi) (⟨alo, blo, 0⟩, fun _ => 0)).1

/-- The backward extension loop of `find_longest_match` (with empty
`bjunk`, the non-junk test always passes). -/
def extendBack (a b : Str) (alo blo : Nat) (bi bj bs : Nat) : FLMBest :=
  if h : alo < bi ∧ blo < bj ∧ a.getD (bi - 1) ' ' = b.getD (bj - 1) ' ' then
    extendBack a b alo blo (bi - 1) (bj - 1) (bs + 1)
  else ⟨bi, bj, bs⟩
termination_by bi
decreasing_by omega

/-- The forward extension loop of `find_longest_match` (with empty
`bjunk`, the non-junk test always passes). -/
def extendFwd (a b : Str) (ahi bhi bi bj bs : Nat) : Nat :=
  if h : bi + bs < ahi ∧ bj + bs < bhi ∧ a.getD (bi + bs) ' ' = b.getD (bj + bs) ' ' then
    extendFwd a b ahi bhi bi bj (bs + 1)
  else bs
termination_by ahi - (bi + bs)
decreasing_by omega

/-- Python `SequenceMatcher.find_longest_match(alo, ahi, blo, bhi)` for the
`isjunk=None` call site: dynamic programming, then backward and forward
extension by equal characters (the junk-extension loops are no-ops). -/
def find_longest_match (a b : Str) (alo ahi blo bhi : Nat) : FLMBest :=
  let d := flmLoop a b alo ahi blo bhi
  let e := extendBack a b alo blo d.besti d.bestj d.bestsize
  ⟨e.besti, e.bestj, extendFwd a b ahi bhi e.besti e.bestj e.bestsize⟩

/-- The total size of the matching blocks found by
`SequenceMatcher.get_matching_blocks`, written as a recursion over the two
windows instead of the source's explicit work queue: the queue processes
each produced window exactly once, independently, so the total matched
size is the same.  (The final merging of adjacent blocks preserves the
total size and is irrelevant to `ratio`.)  The `fuel` argument bounds the
recursion depth; each recursive call strictly shrinks `(ahi - alo) +
(bhi - blo)`, so any fuel of at least `(ahi - alo) + (bhi - blo) + 1`
computes the true value (`matchesInF_stable` below). -/
def matchesInF (a b : Str) : Nat → Nat → Nat → Nat → Nat → Nat
  | 0, _, _, _, _ => 0
  | fuel + 1, alo, ahi, blo, bhi =>
    let m := find_longest_match a b alo ahi blo bhi
    if m.bestsize = 0 then 0
    else
      m.bestsize +
      (if alo < m.besti ∧ blo < m.bestj then
        matchesInF a b fuel alo m.besti blo m.bestj else 0) +
      (if m.besti + m.bestsize < ahi ∧ m.bestj + m.bestsize < bhi then
        matchesInF a b fuel (m.besti + m.bestsize) ahi (m.bestj + m.bestsize) bhi else 0)

/-- The `matches` quantity of `SequenceMatcher.ratio`: the summed size of
all matching blocks of `a` and `b`. -/
def pyMatches (a b : Str) : Nat :=
  matchesInF a b (a.length + b.length + 1) 0 a.length 0 b.length

/-- Python `SequenceMatcher.ratio()` together with difflib's
`_calculate_ratio(matches, length)`: `2.0 * matches / length` when
`length` is nonzero, else `1.0`. -/
def ratioScore (a b : Str) : ℚ :=
  if a.length + b.length = 0 then 1
  else 2 * (pyMatches a b : ℚ) / ((a.length + b.length : Nat) : ℚ)

/-- The inner `similarity(a, b)` function of `detect_renamed_sections`:
`SequenceMatcher(None, a.lower(), b.lower()).ratio() * 0.8` blended with a
length-difference factor and a three-character case-insensitive prefix
bonus, exactly as in the source. -/
def similarity (a b : Str) : ℚ :=
  let r := ratioScore (strLower a) (strLower b)
  let len_diff_factor : ℚ :=
    if 0 < max a.length b.length
    then ((min a.length b.length : Nat) : ℚ) / ((max a.length b.length : Nat) : ℚ)
    else 0
  let prefix_match : ℚ :=
    if strLower (a.take (min 3 a.length)) = strLower (b.take (min 3 b.length))
    then ((min 3 (min a.length b.length) : Nat) : ℚ)
    else 0
  r * (0.8 : ℚ) + len_diff_factor * (0.1 : ℚ) + (prefix_match / 3) * (0.1 : ℚ)

/-! ## Rename/Diff Resolver -/

/-- Update of a Python dict modelled as an association list: assigning to
an existing key replaces its value in place; a new key is appended. -/
def dictInsert (m : List (Str × Str)) (k v : Str) : List (Str × Str) :=
  if m.any (fun p => decide (p.1 = k)) then
    m.map (fun p => if p.1 = k then (k, v) else p)
  else m ++ [(k, v)]

/-- Python dict lookup (`m[k]` / `k in m`): the value at key `k`, if any. -/
def dictGet (m : List (Str × Str)) (k : Str) : Option Str :=
  (m.find? (fun p => decide (p.1 = k))).map (fun p => p.2)

/-- The first candidate of maximal score: `candidates.sort(key=score,
reverse=True)` is stable, so its head is the earliest candidate achieving
the maximal score, which this fold computes. -/
def bestCand : List (Str × ℚ) → Option (Str × ℚ)
  | [] => none
  | c :: rest => some (rest.foldl (fun acc d => if acc.2 < d.2 then d else acc) c)

/-- The exact matches of `detect_renamed_sections`:
`prev_titles.intersection(curr_titles)`, as the sub-list of `prev`. -/
def exactMatches (prev_sections curr_sections : List Str) : List Str :=
  prev_sections.filter (fun t => decide (t ∈ curr_sections))

/-- One step of the similarity-rename loop of `detect_renamed_sections`:
collect the added titles scoring strictly above 0.65 against `old`, and
claim the best-scoring one (removing it from the added pool). -/
def simStep (st : List (Str × Str) × List Str) (old : Str) :
    List (Str × Str) × List Str :=
  let candidates := st.2.filterMap (fun new =>
    let sc := similarity old new
    if (0.65 : ℚ) < sc then some (new, sc) else none)
  match bestCand candidates with
  | none => st
  | some c => (dictInsert st.1 c.1 old, st.2.erase c.1)

/-- The explicit case-rename double loop of `detect_renamed_sections`:
for every pair of non-exact titles equal up to case but not equal,
record `case_renames[new_title] = old_title`. -/
def caseRenames (prev_sections curr_sections : List Str) : List (Str × Str) :=
  let exact := exactMatches prev_sections curr_sections
  let prevR := prev_sections.filter (fun t => decide (t ∉ exact))
  let currR := curr_sections.filter (fun t => decide (t ∉ exact))
  prevR.foldl (fun m old =>
    currR.foldl (fun m' new =>
      if strLower old = strLower new ∧ old ≠ new then dictInsert m' new old
      else m') m) []

/-- A lower-case index of a list of titles, as built by the dict
comprehension `{s.lower(): s for s in l}` (later entries override). -/
def lowerIndex (l : List Str) : List (Str × Str) :=
  l.foldl (fun m s => dictInsert m (strLower s) s) []

/-- The fall-back case-rename pass of `detect_renamed_sections`: compare
the lower-case index maps of the still-unmatched titles and record any
additional pair differing only in case (iterating over the common lower
keys). -/
def caseRenames2 (prev_sections curr_sections : List Str) : List (Str × Str) :=
  let exact := exactMatches prev_sections curr_sections
  let case1 := caseRenames prev_sections curr_sections
  let prevCM := lowerIndex (prev_sections.filter (fun t =>
    decide (t ∉ exact) && decide (t ∉ case1.map Prod.snd)))
  let currCM := lowerIndex (curr_sections.filter (fun t =>
    decide (t ∉ exact) && decide (t ∉ case1.map Prod.fst)))
  (prevCM.map Prod.fst).foldl (fun m kl =>
    match dictGet prevCM kl, dictGet currCM kl with
    | some po, some co => if po ≠ co then dictInsert m co po else m
    | _, _ => m) case1

/-- Python `detect_renamed_sections(prev_sections, curr_sections)`.  The
two arguments are sets of titles; we model them as duplicate-free lists in
iteration order.  Returns the `renamed_sections` map (new title → old
title) as an insertion-ordered association list.  The function follows the
source exactly: exact matches are excluded, an explicit double loop records
case-only renames, a fall-back pass compares lower-cased maps, and a final
greedy pass claims the best similarity match above 0.65 for each removed
title. -/
def detect_renamed_sections (prev_sections curr_sections : List Str) :
    List (Str × Str) :=
  let exact := exactMatches prev_sections curr_sections
  let case2 := caseRenames2 prev_sections curr_sections
  let removed := prev_sections.filter (fun t =>
    decide (t ∉ exact) && decide (t ∉ case2.map Prod.snd))
  let added := curr_sections.filter (fun t =>
    decide (t ∉ exact) && decide (t ∉ case2.map Prod.fst))
  (removed.foldl simStep (case2, added)).1

/-! ## Temporal Assembler (`process_revision_history`)

The network collaborators are modelled by their interface (spec section 6):
`revisions` is the list returned by `get_page_history` (newest first, as
fetched with `rvdir=older`), and the content oracle stands for
`get_revision_content`, returning the raw wikitext of a revision id or
`none`.  Timestamps are modelled structurally (year, month, day, seconds
within the day) rather than as `"%Y-%m-%dT%H:%M:%SZ"` strings, and the
dict keys `str(year)` / `strftime("%Y-%m-%d")` / `"_metadata"` by the
injective-by-construction `HKey`. -/

/-- A parsed revision timestamp. -/
structure TS where
  year : Int
  month : Nat
  day : Nat
  tsec : Nat
deriving DecidableEq, Repr

/-- One revision as listed by the history collaborator. -/
structure Revision where
  ts : TS
  revid : Nat
deriving DecidableEq, Repr

/-- A key of the returned `toc_revisions` dict: `str(year)` in yearly
mode, `strftime("%Y-%m-%d")` in significant mode, or `"_metadata"`. -/
inductive HKey where
  | year (y : Int)
  | date (y : Int) (m : Nat) (d : Nat)
  | metadata
deriving DecidableEq, Repr

/-- An entry of the `significant_revisions` metadata list. -/
structure SigRev where
  dateY : Int
  dateM : Nat
  dateD : Nat
  significance : ℚ
  summary : Str
  revid : Nat
deriving DecidableEq, Repr

/-- The per-revision record stored in `toc_revisions`. -/
structure SnapData where
  sections : List Section
  removed : List Str
  renamed : List (Str × Str)
  ts : TS
  revid : Nat
  significance : ℚ
  change_summary : Str
deriving DecidableEq, Repr

/-- A value of the returned dict: a snapshot record, or the
`_metadata` entry appended in significant mode. -/
inductive HVal where
  | snap (d : SnapData)
  | meta (xs : List SigRev)
deriving DecidableEq, Repr

/-- Python dict assignment `toc_revisions[key] = v`: replace in place if
the key exists, else append. -/
def hInsert (h : List (HKey × HVal)) (k : HKey) (v : HVal) : List (HKey × HVal) :=
  if h.any (fun p => decide (p.1 = k)) then
    h.map (fun p => if p.1 = k then (k, v) else p)
  else h ++ [(k, v)]

/-- The sampling mode of `process_revision_history`. -/
inductive Mode where
  | yearly
  | significant
deriving DecidableEq, Repr

/-- The loop state of `process_revision_history`. -/
structure RunState where
  toc : List (HKey × HVal)
  yearsProcessed : List Int
  previousSections : Option (List Str)
  prevSectionsData : Option (List Section)
  significantRevisions : List SigRev
deriving DecidableEq, Repr

/-- The title set `{s["title"] for s in sections}`. -/
def sectionTitles (secs : List Section) : List Str :=
  setOf (secs.map Section.title)

/-- A parsed section list viewed by the significance scorer: each section
is a dict with `"title"` and `"level"` keys. -/
def secsToPy (secs : List Section) : PySecs :=
  .list (secs.map (fun s => SecVal.dict (some s.title) (some (s.level : Int))))

/-- The optional previous section data, wrapped for the scorer (`None`
stays `None`). -/
def optSecsToPy : Option (List Section) → Option PySecs
  | none => none
  | some l => some (secsToPy l)

/-- The annotation step of `process_revision_history`: a section that is
not in the previous title set (or has no previous snapshot at all) is
marked renamed — with its previous title — when the rename map contains
its title, and new otherwise. -/
def annotateSection (previousSections : Option (List Str))
    (renamed : List (Str × Str)) (s : Section) : Section :=
  let mark : Section :=
    match dictGet renamed s.title with
    | some pt => { s with isRenamed := true, previousTitle := some pt }
    | none => { s with isNew := true }
  match previousSections with
  | none => mark
  | some prev => if s.title ∈ prev then s else mark

/-- Storing one retained revision: compute the rename map and removed set
against the previous retained snapshot, annotate the sections, store the
record under `key`, and update the previous-snapshot state. -/
def storeSnap (st : RunState) (key : HKey) (rev : Revision)
    (sections : List Section) (current_sections : List Str)
    (sig : ℚ) (summary : Str) : RunState :=
  let renamed := match st.previousSections with
    | none => []
    | some prev => detect_renamed_sections prev current_sections
  let removed := match st.previousSections with
    | none => []
    | some prev => prev.filter (fun t =>
        decide (t ∉ current_sections) && decide (t ∉ renamed.map Prod.snd))
  let annotated := sections.map (annotateSection st.previousSections renamed)
  let data : SnapData :=
    { sections := annotated, removed := removed, renamed := renamed,
      ts := rev.ts, revid := rev.revid, significance := sig,
      change_summary := summary }
  { st with toc := hInsert st.toc key (.snap data),
            previousSections := some current_sections,
            prevSectionsData := some annotated }

/-- One iteration of the `for rev in reversed(revisions)` loop of
`process_revision_history`. -/
def processStep (mode : Mode) (significance_threshold : ℚ)
    (start_year end_year : Int) (oracle : Nat → Option Str)
    (st : RunState) (rev : Revision) : RunState :=
  let year := rev.ts.year
  if year < start_year ∨ end_year < year then st
  else if mode = Mode.yearly ∧ year ∈ st.yearsProcessed then st
  else
    match oracle rev.revid with
    | none => st
    | some content =>
      if content.isEmpty then st
      else
        let sections := extract_toc content
        let current_sections := sectionTitles sections
        let sig := calculate_toc_change_significance (secsToPy sections)
          (optSecsToPy st.prevSectionsData)
        match mode with
        | .yearly =>
          if year ∈ st.yearsProcessed then st
          else
            storeSnap { st with yearsProcessed := st.yearsProcessed ++ [year] }
              (HKey.year year) rev sections current_sections sig.1 sig.2
        | .significant =>
          if st.previousSections = none ∨ significance_threshold ≤ sig.1 then
            storeSnap
              { st with significantRevisions := st.significantRevisions ++
                  [{ dateY := rev.ts.year, dateM := rev.ts.month,
                     dateD := rev.ts.day, significance := sig.1,
                     summary := sig.2, revid := rev.revid }] }
              (HKey.date rev.ts.year rev.ts.month rev.ts.day) rev sections
              current_sections sig.1 sig.2
          else st

/-- Python `process_revision_history`, over the modelled collaborators:
fold the step over the revisions oldest-first, then append the
`_metadata` entry in significant mode. -/
def process_revision_history (mode : Mode) (significance_threshold : ℚ)
    (start_year end_year : Int) (oracle : Nat → Option Str)
    (revisions : List Revision) : List (HKey × HVal) :=
  let final := revisions.reverse.foldl
    (processStep mode significance_threshold start_year end_year oracle)
    ⟨[], [], none, none, []⟩
  match mode with
  | .significant => hInsert final.toc HKey.metadata (.meta final.significantRevisions)
  | .yearly => final.toc

/-- Lexicographic order on timestamps. -/
def TS.le (a b : TS) : Prop :=
  a.year < b.year ∨ (a.year = b.year ∧ (a.month < b.month ∨ (a.month = b.month ∧
    (a.day < b.day ∨ (a.day = b.day ∧ a.tsec ≤ b.tsec)))))

/-- Strict time order on history keys: year keys compare by year, date
keys lexicographically; `_metadata` is not a time key. -/
def keyLT : HKey → HKey → Prop
  | .year y1, .year y2 => y1 < y2
  | .date y1 m1 d1, .date y2 m2 d2 =>
      y1 < y2 ∨ (y1 = y2 ∧ (m1 < m2 ∨ (m1 = m2 ∧ d1 < d2)))
  | _, _ => False

/-- A calendar date is no later than a timestamp. -/
def dateLE (y : Int) (m d : Nat) (t : TS) : Prop :=
  y < t.year ∨ (y = t.year ∧ (m < t.month ∨ (m = t.month ∧ d ≤ t.day)))

/-- Invariant for the `j2len` dictionaries of `find_longest_match`: every
nonzero chain ends inside the `b` window, is no longer than its distance
into the `b` window, and is no longer than the number of lines processed
so far (`bound` is the index of the next line). -/
abbrev JInv (alo blo bhi bound : Nat) (J : Nat → Nat) : Prop :=
  ∀ j, J j = 0 ∨ (blo ≤ j ∧ j < bhi ∧ J j + blo ≤ j + 1 ∧ J j + alo ≤ bound)

/-- Invariant for the running best block: either it is still the initial
empty block at `(alo, blo)`, or it lies inside the requested windows. -/
abbrev BInv (alo ahi blo bhi : Nat) (m : FLMBest) : Prop :=
  (m.bestsize = 0 ∧ m.besti = alo ∧ m.bestj = blo) ∨
  (alo ≤ m.besti ∧ m.besti + m.bestsize ≤ ahi ∧ blo ≤ m.bestj ∧
    m.bestj + m.bestsize ≤ bhi)

/-- The length of the maximal run of non-popular characters of `s` ending
at position `x` (used to analyse `find_longest_match` on two copies of the
same string: `j2len` chains of `(s, s)` live inside such runs). -/
def runLen (s : Str) : Nat → Nat
  | 0 => if isPopular s (s.getD 0 ' ') then 0 else 1
  | x + 1 => if isPopular s (s.getD (x + 1) ' ') then 0 else runLen s x + 1

/-- The run length ending just before position `i` (0 when `i = 0`). -/
def prevRun (s : Str) : Nat → Nat
  | 0 => 0
  | x + 1 => runLen s x

/-- Invariant of the dynamic-programming state of `find_longest_match` on
`(s, s)` over the full windows, after processing lines `[0, i)`: the best
block is diagonal, its size dominates every non-popular run seen so far,
and the `j2len` chains are bounded by (and, on the diagonal, realise) the
run lengths. -/
abbrev DiagInv (s : Str) (i : Nat) (st : FLMBest × (Nat → Nat)) : Prop :=
  st.1.besti = st.1.bestj ∧
  (∀ x, x < i → runLen s x ≤ st.1.bestsize) ∧
  (∀ j, st.2 j ≤ runLen s j) ∧
  (∀ j, st.2 j ≤ prevRun s i) ∧
  (∀ x, i = x + 1 → isPopular s (s.getD x ' ') = false → runLen s x ≤ st.2 x)

/-- A concrete three-revision significant-mode run (newest first): the
revisions add sections gradually, so that the middle revision falls below
the retention threshold. -/
def revsC3 : List Revision :=
  [{ ts := { year := 2020, month := 1, day := 3, tsec := 0 }, revid := 3 },
   { ts := { year := 2020, month := 1, day := 2, tsec := 0 }, revid := 2 },
   { ts := { year := 2020, month := 1, day := 1, tsec := 0 }, revid := 1 }]

/-- The content oracle for `revsC3`. -/
def orcC3 : Nat → Option Str := fun rid =>
  if rid = 1 then some "==A==\n==B==".toList
  else if rid = 2 then some "==A==\n==B==\n==C==".toList
  else if rid = 3 then some "==A==\n==B==\n==C==\n==D==\n==E==".toList
  else none

/-- The run state after processing the oldest revision of `revsC3`. -/
def stA : RunState :=
  { toc := [(HKey.date 2020 1 1, HVal.snap
      { sections := [
          { title := ['A'], level := 1, raw_level := 2, isNew := true,
            isRenamed := false, previousTitle := none },
          { title := ['B'], level := 1, raw_level := 2, isNew := true,
            isRenamed := false, previousTitle := none }],
        removed := [], renamed := [],
        ts := { year := 2020, month := 1, day := 1, tsec := 0 }, revid := 1,
        significance := 10, change_summary := "Initial version".toList })],
    yearsProcessed := [],
    previousSections := some [['A'], ['B']],
    prevSectionsData := some [
      { title := ['A'], level := 1, raw_level := 2, isNew := true,
        isRenamed := false, previousTitle := none },
      { title := ['B'], level := 1, raw_level := 2, isNew := true,
        isRenamed := false, previousTitle := none }],
    significantRevisions := [
      { dateY := 2020, dateM := 1, dateD := 1, significance := 10,
        summary := "Initial version".toList, revid := 1 }] }

/-! ## Helper lemmas -/

/-- Fold invariance: a predicate preserved by each step of a left fold holds
of the result. -/
theorem foldl_inv {α β : Type} {P : β → Prop} {f : β → α → β} :
    ∀ (l : List α) (b : β), P b → (∀ b' a, a ∈ l → P b' → P (f b' a)) →
      P (l.foldl f b) := by
  intro l
  induction l with
  | nil => intro b hb _; exact hb
  | cons a l ih =>
    intro b hb hstep
    exact ih (f b a) (hstep b a (List.mem_cons_self a l) hb)
      (fun b' x hx => hstep b' x (List.mem_cons_of_mem a hx))

/-- Unfolding of the first component of `flmJ`. -/
theorem flmJ_fst (i : Nat) (oldJ : Nat → Nat) (t : FLMBest × (Nat → Nat)) (j : Nat) :
    (flmJ i oldJ t j).1 =
      if t.1.bestsize < (if j = 0 then 0 else oldJ (j - 1)) + 1
      then ⟨i + 1 - ((if j = 0 then 0 else oldJ (j - 1)) + 1),
            j + 1 - ((if j = 0 then 0 else oldJ (j - 1)) + 1),
            (if j = 0 then 0 else oldJ (j - 1)) + 1⟩
      else t.1 := rfl

/-- Unfolding of the second component of `flmJ`. -/
theorem flmJ_snd (i : Nat) (oldJ : Nat → Nat) (t : FLMBest × (Nat → Nat)) (j x : Nat) :
    (flmJ i oldJ t j).2 x =
      if x = j then (if j = 0 then 0 else oldJ (j - 1)) + 1 else t.2 x := rfl

/-- One inner-loop step of `find_longest_match` preserves the window
invariants. -/
theorem flmJ_inv {alo ahi blo bhi i : Nat} {oldJ : Nat → Nat}
    {st : FLMBest × (Nat → Nat)} {j : Nat}
    (hi1 : alo ≤ i) (hi2 : i < ahi) (hj1 : blo ≤ j) (hj2 : j < bhi)
    (hJo : JInv alo blo bhi i oldJ) (hB : BInv alo ahi blo bhi st.1)
    (hN : JInv alo blo bhi (i + 1) st.2) :
    BInv alo ahi blo bhi (flmJ i oldJ st j).1 ∧
      JInv alo blo bhi (i + 1) (flmJ i oldJ st j).2 := by
  have hk1 : (if j = 0 then 0 else oldJ (j - 1)) + 1 + blo ≤ j + 1 := by
    by_cases h0 : j = 0
    · subst h0; simp; omega
    · simp only [h0, if_false]
      rcases hJo (j - 1) with h | h
      · rw [h]; omega
      · omega
  have hk2 : (if j = 0 then 0 else oldJ (j - 1)) + 1 + alo ≤ i + 1 := by
    by_cases h0 : j = 0
    · subst h0; simp; omega
    · simp only [h0, if_false]
      rcases hJo (j - 1) with h | h
      · rw [h]; omega
      · omega
  constructor
  · simp only [flmJ]
    by_cases hlt : st.1.bestsize < (if j = 0 then 0 else oldJ (j - 1)) + 1
    · rw [if_pos hlt]
      right
      simp only
      omega
    · rw [if_neg hlt]
      exact hB
  · intro x
    simp only [flmJ]
    by_cases hx : x = j
    · subst hx
      right
      simp only [if_pos rfl]
      exact ⟨hj1, hj2, hk1, hk2⟩
    · simp only [if_neg hx]
      exact hN x

/-- One line of the `find_longest_match` loop preserves the window
invariants and advances the line bound. -/
theorem flmLine_inv {a b : Str} {alo ahi blo bhi i : Nat}
    {st : FLMBest × (Nat → Nat)}
    (hi1 : alo ≤ i) (hi2 : i < ahi)
    (hB : BInv alo ahi blo bhi st.1) (hJ : JInv alo blo bhi i st.2) :
    BInv alo ahi blo bhi (flmLine a b blo bhi st i).1 ∧
      JInv alo blo bhi (i + 1) (flmLine a b blo bhi st i).2 := by
  have h := foldl_inv
    (P := fun s : FLMBest × (Nat → Nat) =>
      BInv alo ahi blo bhi s.1 ∧ JInv alo blo bhi (i + 1) s.2)
    ((b2j b (a.getD i ' ')).filter (fun j => decide (blo ≤ j) && decide (j < bhi)))
    (st.1, fun _ => 0)
    ⟨hB, fun _ => Or.inl rfl⟩
    (by
      intro s' j hj hP
      have hmem := List.of_mem_filter hj
      simp only [Bool.and_eq_true, decide_eq_true_eq] at hmem
      exact flmJ_inv hi1 hi2 hmem.1 hmem.2 hJ hP.1 hP.2)
  exact h

/-- The dynamic-programming fold over any line range keeps the best block
inside the windows. -/
theorem flmAux_inv {a b : Str} {alo ahi blo bhi : Nat} :
    ∀ (len i : Nat) (st : FLMBest × (Nat → Nat)), alo ≤ i → i + len ≤ ahi →
      BInv alo ahi blo bhi st.1 → JInv alo blo bhi i st.2 →
      BInv alo ahi blo bhi
        (((List.range' i len).foldl (flmLine a b blo bhi) st).1) := by
  intro len
  induction len with
  | zero => intro i st _ _ hB _; simpa using hB
  | succ n ih =>
    intro i st hi1 hi2 hB hJ
    rw [List.range'_succ, List.foldl_cons]
    have hstep := flmLine_inv (a := a) (b := b) hi1 (by omega) hB hJ
    exact ih (i + 1) _ (by omega) (by omega) hstep.1 hstep.2

/-- The best block of the dynamic-programming phase satisfies the window
invariant. -/
theorem flmLoop_BInv (a b : Str) (alo ahi blo bhi : Nat) :
    BInv alo ahi blo bhi (flmLoop a b alo ahi blo bhi) := by
  unfold flmLoop
  by_cases h : alo ≤ ahi
  · exact flmAux_inv (ahi - alo) alo _ le_rfl (by omega)
      (Or.inl ⟨rfl, rfl, rfl⟩) (fun _ => Or.inl rfl)
  · have h0 : ahi - alo = 0 := by omega
    rw [h0]
    exact Or.inl ⟨rfl, rfl, rfl⟩

/-- The backward extension loop preserves the best-block invariant. -/
theorem extendBack_inv {a b : Str} {alo ahi blo bhi : Nat} :
    ∀ (bi bj bs : Nat), BInv alo ahi blo bhi ⟨bi, bj, bs⟩ →
      BInv alo ahi blo bhi (extendBack a b alo blo bi bj bs) := by
  intro bi
  induction bi with
  | zero =>
    intro bj bs hB
    rw [extendBack]
    rw [dif_neg (by omega)]
    exact hB
  | succ n ih =>
    intro bj bs hB
    rw [extendBack]
    split
    · rename_i hcond
      refine ih (bj - 1) (bs + 1) ?_
      rcases hB with ⟨h0, ha, hb⟩ | ⟨h1, h2, h3, h4⟩
      · simp only at ha hb h0
        omega
      · right
        simp only at h1 h2 h3 h4 ⊢
        omega
    · exact hB

/-- The forward extension loop either leaves the size unchanged or returns
a larger size still inside the windows. -/
theorem extendFwd_cases {a b : Str} {ahi bhi bi bj : Nat} :
    ∀ (n bs : Nat), ahi - (bi + bs) ≤ n →
      extendFwd a b ahi bhi bi bj bs = bs ∨
      (bi + extendFwd a b ahi bhi bi bj bs ≤ ahi ∧
        bj + extendFwd a b ahi bhi bi bj bs ≤ bhi ∧
        bs < extendFwd a b ahi bhi bi bj bs) := by
  intro n
  induction n with
  | zero =>
    intro bs hn
    rw [extendFwd, dif_neg (by omega)]
    exact Or.inl rfl
  | succ n ih =>
    intro bs hn
    rw [extendFwd]
    split
    · rename_i hcond
      rcases ih (bs + 1) (by omega) with h | h
      · rw [h]
        right
        omega
      · right
        omega
    · exact Or.inl rfl

/-- The best block returned by `find_longest_match` either is the trivial
empty block at `(alo, blo)` or lies inside the requested windows. -/
theorem flm_cases (a b : Str) (alo ahi blo bhi : Nat) :
    ((find_longest_match a b alo ahi blo bhi).bestsize = 0 ∧
      (find_longest_match a b alo ahi blo bhi).besti = alo ∧
      (find_longest_match a b alo ahi blo bhi).bestj = blo) ∨
    (alo ≤ (find_longest_match a b alo ahi blo bhi).besti ∧
      (find_longest_match a b alo ahi blo bhi).besti +
        (find_longest_match a b alo ahi blo bhi).bestsize ≤ ahi ∧
      blo ≤ (find_longest_match a b alo ahi blo bhi).bestj ∧
      (find_longest_match a b alo ahi blo bhi).bestj +
        (find_longest_match a b alo ahi blo bhi).bestsize ≤ bhi) := by
  simp only [find_longest_match]
  have hd := flmLoop_BInv a b alo ahi blo bhi
  set d := flmLoop a b alo ahi blo bhi with hd_def
  have he : BInv alo ahi blo bhi (extendBack a b alo blo d.besti d.bestj d.bestsize) :=
    extendBack_inv d.besti d.bestj d.bestsize (by
      rcases hd with h | h
      · exact Or.inl h
      · exact Or.inr h)
  set e := extendBack a b alo blo d.besti d.bestj d.bestsize with he_def
  have hf := @extendFwd_cases a b ahi bhi e.besti e.bestj ahi e.bestsize (by omega)
  rcases he with ⟨h0, ha, hb⟩ | ⟨h1, h2, h3, h4⟩
  · rcases hf with h | h
    · left
      exact ⟨h.trans h0, ha, hb⟩
    · right
      omega
  · rcases hf with h | h
    · right
      rw [h]
      exact ⟨h1, h2, h3, h4⟩
    · right
      omega

/-- The total matched size is at most the smaller window size, for any
fuel. -/
theorem matchesInF_le (a b : Str) :
    ∀ (fuel alo ahi blo bhi : Nat),
      matchesInF a b fuel alo ahi blo bhi ≤ min (ahi - alo) (bhi - blo) := by
  intro fuel
  induction fuel with
  | zero => intro alo ahi blo bhi; simp [matchesInF]
  | succ n ih =>
    intro alo ahi blo bhi
    simp only [matchesInF]
    by_cases hk : (find_longest_match a b alo ahi blo bhi).bestsize = 0
    · simp [hk]
    · rw [if_neg hk]
      rcases flm_cases a b alo ahi blo bhi with ⟨h0, _, _⟩ | ⟨h1, h2, h3, h4⟩
      · exact absurd h0 hk
      · set m := find_longest_match a b alo ahi blo bhi
        have hL : (if alo < m.besti ∧ blo < m.bestj then
            matchesInF a b n alo m.besti blo m.bestj else 0) ≤
            min (m.besti - alo) (m.bestj - blo) := by
          split
          · exact ih alo m.besti blo m.bestj
          · simp
        have hR : (if m.besti + m.bestsize < ahi ∧ m.bestj + m.bestsize < bhi then
            matchesInF a b n (m.besti + m.bestsize) ahi (m.bestj + m.bestsize) bhi
            else 0) ≤
            min (ahi - (m.besti + m.bestsize)) (bhi - (m.bestj + m.bestsize)) := by
          split
          · exact ih _ _ _ _
          · simp
        have hL1 := le_trans hL (min_le_left _ _)
        have hL2 := le_trans hL (min_le_right _ _)
        have hR1 := le_trans hR (min_le_left _ _)
        have hR2 := le_trans hR (min_le_right _ _)
        refine le_min ?_ ?_ <;> omega

/-- The matched size of two whole strings is at most the shorter length. -/
theorem pyMatches_le (a b : Str) : pyMatches a b ≤ min a.length b.length := by
  have h := matchesInF_le a b (a.length + b.length + 1) 0 a.length 0 b.length
  simpa using h

/-- The sequence ratio lies in [0, 1]. -/
theorem ratioScore_bounds (a b : Str) :
    0 ≤ ratioScore a b ∧ ratioScore a b ≤ 1 := by
  unfold ratioScore
  split
  · norm_num
  · rename_i hne
    constructor
    · positivity
    · rw [div_le_one (by positivity)]
      have h := pyMatches_le a b
      have h1 : (pyMatches a b : ℚ) ≤ (min a.length b.length : Nat) := by
        exact_mod_cast h
      have h2 : ((min a.length b.length : Nat) : ℚ) * 2 ≤
          ((a.length + b.length : Nat) : ℚ) := by
        have : (min a.length b.length) * 2 ≤ a.length + b.length := by omega
        exact_mod_cast this
      push_cast at h1 h2 ⊢
      nlinarith



/-- Dropping a prefix by a predicate never lengthens a list. -/
theorem dropWhile_length_le (p : Nat → Bool) : ∀ l : List Nat, (l.dropWhile p).length ≤ l.length
  | [] => le_rfl
  | a :: l => by
    by_cases h : p a
    · simp only [List.dropWhile, h]
      exact Nat.le_succ_of_le (dropWhile_length_le p l)
    · simp [List.dropWhile, h]

/-- The corrected level produced by one stack update equals the size of the
resulting stack. -/
theorem tocStep_fst_eq_len (s : List Nat) (r : Nat) :
    (tocStep s r).1 = (tocStep s r).2.length := by
  cases s with
  | nil => simp [tocStep]
  | cons t rest =>
    by_cases h : t < r <;> simp [tocStep, h]

/-- The corrected level produced by one stack update is at least 1. -/
theorem tocStep_fst_pos (s : List Nat) (r : Nat) : 1 ≤ (tocStep s r).1 := by
  cases s with
  | nil => simp [tocStep]
  | cons t rest =>
    by_cases h : t < r <;> simp [tocStep, h]

/-- The corrected level produced by one stack update exceeds the previous
stack size by at most one. -/
theorem tocStep_fst_le (s : List Nat) (r : Nat) : (tocStep s r).1 ≤ s.length + 1 := by
  cases s with
  | nil => simp [tocStep]
  | cons t rest =>
    by_cases h : t < r
    · simp [tocStep, h]
    · have hr : r ≤ t := Nat.le_of_not_lt h
      have hdrop : ((t :: rest).dropWhile (fun x => r ≤ x)) = rest.dropWhile (fun x => r ≤ x) := by
        simp [List.dropWhile, hr]
      have hlen : (rest.dropWhile (fun x => r ≤ x)).length ≤ rest.length :=
        dropWhile_length_le _ rest
      simp only [tocStep, if_neg h, hdrop]
      simpa using Nat.add_le_add_right (Nat.le_trans hlen (Nat.le_succ_of_le le_rfl)) 1

/-- Unfolding of `tocLine` on a non-heading line. -/
theorem tocLine_not_qual (st : TocState) (l : Str) (h : qualifies (trimWS l) = false) :
    tocLine st l = st := by
  simp [tocLine, h]

/-- Unfolding of `tocLine` on a heading line with empty title. -/
theorem tocLine_qual_empty (st : TocState) (l : Str)
    (h : qualifies (trimWS l) = true) (ht : (lineTitle l).isEmpty = true) :
    tocLine st l = { st with stack := (tocStep st.stack (lineRawLevel l)).2 } := by
  simp [tocLine, h, ht]

/-- Unfolding of `tocLine` on a heading line with nonempty title. -/
theorem tocLine_qual_nonempty (st : TocState) (l : Str)
    (h : qualifies (trimWS l) = true) (ht : (lineTitle l).isEmpty = false) :
    tocLine st l =
      { sections := st.sections ++
          [{ title := lineTitle l, level := (tocStep st.stack (lineRawLevel l)).1,
             raw_level := lineRawLevel l }],
        stack := (tocStep st.stack (lineRawLevel l)).2 } := by
  simp [tocLine, h, ht]

/-! ## Claims about the Outline Parser -/

/-- Claim C1, as stated, is false: the emitted `level` sequence can jump by
more than +1 between consecutive emitted headings.  The middle line
`"======"` qualifies as a heading and pushes onto the level stack, but its
title is empty so no section is emitted; the following heading is then
emitted at level 3 directly after a level-1 heading. -/
theorem claim_C1_counterexample :
    (extractTocLines ["==A==".toList, "======".toList,
        "========C========".toList]).map Section.level = [1, 3] ∧
    ¬ List.Chain' (fun a b => b ≤ a + 1)
        ((extractTocLines ["==A==".toList, "======".toList,
            "========C========".toList]).map Section.level) := by
  have hmap : (extractTocLines ["==A==".toList, "======".toList,
      "========C========".toList]).map Section.level = [1, 3] := by decide
  refine ⟨hmap, ?_⟩
  rw [hmap]
  intro hc
  have h21 : (3 : Nat) ≤ 1 + 1 := (List.chain'_cons.mp hc).1
  omega

/-- Claim C1, amended: every emitted level is at least 1, and — provided no
qualifying heading line of the input has an empty title — the emitted
`level` sequence never jumps by more than +1 between consecutive emitted
headings.  (The counterexample shows the proviso is needed: an empty-title
heading line updates the level stack without emitting a section.) -/
theorem claim_C1 (lines : List Str) :
    (∀ s ∈ extractTocLines lines, 1 ≤ s.level) ∧
    ((∀ l ∈ lines, qualifies (trimWS l) = true →
        (lineTitle l).isEmpty = false) →
      List.Chain' (fun a b => b.level ≤ a.level + 1) (extractTocLines lines)) := by
  constructor
  · -- every emitted level is positive
    have h := foldl_inv (P := fun st : TocState => ∀ s ∈ st.sections, 1 ≤ s.level)
      (f := tocLine) lines ⟨[], []⟩ (by intro s hs; simp at hs)
      (by
        intro st l _ hst
        by_cases hq : qualifies (trimWS l) = true
        · by_cases ht : (lineTitle l).isEmpty = true
          · rw [tocLine_qual_empty st l hq ht]; exact hst
          · rw [tocLine_qual_nonempty st l hq (Bool.eq_false_iff.mpr ht)]
            intro s hs
            rcases List.mem_append.mp hs with hmem | hmem
            · exact hst s hmem
            · rcases List.mem_singleton.mp hmem with rfl
              exact tocStep_fst_pos _ _
        · rw [tocLine_not_qual st l (Bool.eq_false_iff.mpr hq)]; exact hst)
    exact h
  · intro hne
    have h := foldl_inv (P := fun st : TocState =>
        List.Chain' (fun a b => b.level ≤ a.level + 1) st.sections ∧
        (match st.sections.getLast? with
         | none => st.stack = []
         | some s => s.level = st.stack.length))
      (f := tocLine) lines ⟨[], []⟩ (by constructor <;> simp)
      (by
        intro st l hl hst
        by_cases hq : qualifies (trimWS l) = true
        · have ht := hne l hl hq
          rw [tocLine_qual_nonempty st l hq ht]
          obtain ⟨hchain, hlink⟩ := hst
          constructor
          · rw [List.chain'_append]
            refine ⟨hchain, List.chain'_singleton _, ?_⟩
            intro x hx y hy
            simp only [List.head?_cons, Option.mem_def, Option.some.injEq] at hy
            subst hy
            cases hlast : st.sections.getLast? with
            | none => rw [hlast] at hx; simp at hx
            | some sl =>
              rw [hlast] at hx hlink
              simp only [Option.mem_def, Option.some.injEq] at hx
              subst hx
              simpa [hlink] using tocStep_fst_le st.stack _
          · rw [List.getLast?_concat]
            exact tocStep_fst_eq_len _ _
        · rw [tocLine_not_qual st l (Bool.eq_false_iff.mpr hq)]; exact hst)
    exact h.1

/-- Witness for the amended claim C1 at a concrete input. -/
theorem claim_C1_witness :
    (∀ s ∈ extractTocLines ["==A==".toList, "===B===".toList], 1 ≤ s.level) ∧
    List.Chain' (fun a b => b.level ≤ a.level + 1)
      (extractTocLines ["==A==".toList, "===B===".toList]) := by
  have h := claim_C1 ["==A==".toList, "===B===".toList]
  exact ⟨h.1, h.2 (by decide)⟩

/-- Claim C6, as stated, is false on the code: for the heading line
`"== A =="` the code computes `raw_level = (7 - 1) / 2 = 3` (the length
difference between the trimmed line and the fully stripped title, which
counts the two inner spaces), while the claim's value — total marker
characters on both sides divided by two — is `4 / 2 = 2`. -/
theorem claim_C6_counterexample :
    (extractTocLines ["== A ==".toList]).map Section.raw_level = [3] ∧
    totalMarkerChars (trimWS "== A ==".toList) / 2 = 2 ∧ (3 : Nat) ≠ 2 := by
  refine ⟨by decide, by decide, by decide⟩

/-- Claim C6, amended: for a qualifying heading line, the emitted section's
`raw_level` is the difference between the trimmed line's length and the
title's length, divided by two (so marker characters and any whitespace
adjacent to them are both counted); the `title` is the line stripped of
markers and then of whitespace; and no section is emitted when that title
is empty.  Stated for a single-line input, on which the corrected level
is 1. -/
theorem claim_C6 (l : Str) (hq : qualifies (trimWS l) = true) :
    extractTocLines [l] =
      (if (lineTitle l).isEmpty then []
       else [{ title := lineTitle l, level := 1, raw_level := lineRawLevel l }]) := by
  by_cases ht : (lineTitle l).isEmpty = true
  · simp only [extractTocLines, List.foldl_cons, List.foldl_nil,
      tocLine_qual_empty ⟨[], []⟩ l hq ht, ht, if_true]
  · have ht' := Bool.eq_false_iff.mpr ht
    simp only [extractTocLines, List.foldl_cons, List.foldl_nil,
      tocLine_qual_nonempty ⟨[], []⟩ l hq ht', ht', if_false]
    simp [tocStep]

/-- Witness for the amended claim C6 at a concrete input. -/
theorem claim_C6_witness :
    extractTocLines ["==Intro==".toList] =
      [{ title := lineTitle "==Intro==".toList, level := 1,
         raw_level := lineRawLevel "==Intro==".toList }] := by
  have h := claim_C6 "==Intro==".toList (by decide)
  rw [h]
  decide

/-- Claim C7, confirmed: a line is recognized as a heading exactly when its
trimmed form starts and ends with the marker sequence `==` of length two.
A line failing that test — in particular any malformed-marker line —
contributes nothing to the parse (dropping it from the input leaves the
output unchanged), and a qualifying line with nonempty title is parsed into
a section carrying that title.  The parser is a total function, so it never
raises on any input. -/
theorem claim_C7 (pre post : List Str) (l : Str) :
    (qualifies (trimWS l) = false →
      extractTocLines (pre ++ l :: post) = extractTocLines (pre ++ post)) ∧
    (qualifies (trimWS l) = true → (lineTitle l).isEmpty = false →
      ∃ s : Section, extractTocLines [l] = [s] ∧ s.title = lineTitle l) := by
  constructor
  · intro h
    simp only [extractTocLines, List.foldl_append, List.foldl_cons]
    rw [tocLine_not_qual _ l h]
  · intro hq ht
    rw [extractTocLines, List.foldl_cons, List.foldl_nil,
      tocLine_qual_nonempty ⟨[], []⟩ l hq ht]
    exact ⟨_, rfl, rfl⟩

/-! ## Claims about the Change Significance Scorer -/

/-- Claim C8, confirmed: the significance scorer is a total function (so it
never raises, for malformed inputs included), its score always lies in
[0, 10], and on every malformed/empty-input branch (non-list argument,
empty list, or no titled dict items on either side) it returns the neutral
score 5 together with a nonempty descriptive summary. -/
theorem claim_C8 (curr : PySecs) (prev : Option PySecs) :
    0 ≤ (calculate_toc_change_significance curr prev).1 ∧
    (calculate_toc_change_significance curr prev).1 ≤ 10 ∧
    (∀ p, prev = some p → malformedSig curr p = true →
      (calculate_toc_change_significance curr prev).1 = 5 ∧
      (calculate_toc_change_significance curr prev).2 ≠ []) := by
  rcases prev with _ | p
  · refine ⟨?_, ?_, ?_⟩
    · norm_num [calculate_toc_change_significance]
    · norm_num [calculate_toc_change_significance]
    · intro p hp; simp at hp
  · rcases curr with _ | cs
    · refine ⟨?_, ?_, ?_⟩
      · norm_num [calculate_toc_change_significance]
      · norm_num [calculate_toc_change_significance]
      · intro q hq _
        obtain rfl : p = q := by injection hq
        refine ⟨by norm_num [calculate_toc_change_significance], by
          simp [calculate_toc_change_significance]⟩
    · by_cases h1 : cs.isEmpty
      · refine ⟨?_, ?_, ?_⟩
        · norm_num [calculate_toc_change_significance, h1]
        · norm_num [calculate_toc_change_significance, h1]
        · intro q hq _
          obtain rfl : p = q := by injection hq
          refine ⟨by norm_num [calculate_toc_change_significance, h1], by
            simp [calculate_toc_change_significance, h1]⟩
      · rcases p with _ | ps
        · refine ⟨?_, ?_, ?_⟩
          · norm_num [calculate_toc_change_significance, h1]
          · norm_num [calculate_toc_change_significance, h1]
          · intro q hq _
            obtain rfl : PySecs.other = q := by injection hq
            refine ⟨by norm_num [calculate_toc_change_significance, h1], by
              simp [calculate_toc_change_significance, h1]⟩
        · by_cases h2 : ps.isEmpty
          · refine ⟨?_, ?_, ?_⟩
            · norm_num [calculate_toc_change_significance, h1, h2]
            · norm_num [calculate_toc_change_significance, h1, h2]
            · intro q hq _
              obtain rfl : PySecs.list ps = q := by injection hq
              refine ⟨by norm_num [calculate_toc_change_significance, h1, h2], by
                simp [calculate_toc_change_significance, h1, h2]⟩
          · by_cases h3 : (setOf (valsTitles cs)).isEmpty || (setOf (valsTitles ps)).isEmpty
            · refine ⟨?_, ?_, ?_⟩
              · norm_num [calculate_toc_change_significance, h1, h2, h3]
              · norm_num [calculate_toc_change_significance, h1, h2, h3]
              · intro q hq _
                obtain rfl : PySecs.list ps = q := by injection hq
                refine ⟨by norm_num [calculate_toc_change_significance, h1, h2, h3], by
                  simp [calculate_toc_change_significance, h1, h2, h3]⟩
            · have hval : (calculate_toc_change_significance (.list cs) (some (.list ps))).1 =
                  min 10 ((((setOf (valsTitles cs)).filter
                      (fun t => decide (t ∉ setOf (valsTitles ps)))).length * 2 +
                    (((setOf (valsTitles cs)).filter
                      (fun t => decide (t ∈ setOf (valsTitles ps)))).filter (fun t =>
                      decide (lookupLevel cs t ≠ lookupLevel ps t))).length * 3 +
                    ((setOf (valsTitles ps)).filter
                      (fun t => decide (t ∉ setOf (valsTitles cs)))).length * 2 : ℚ) / 2) := by
                simp only [calculate_toc_change_significance, h1, h2, h3,
                  Bool.false_eq_true, if_false, Nat.cast_add]
                ring_nf
              refine ⟨?_, ?_, ?_⟩
              · rw [hval]
                refine le_min (by norm_num) ?_
                positivity
              · rw [hval]
                exact min_le_left _ _
              · intro q hq hmal
                obtain rfl : PySecs.list ps = q := by injection hq
                exfalso
                simp only [malformedSig, h1, h2, Bool.false_or] at hmal
                rw [hmal] at h3
                exact h3 rfl
    
/-- Witness for claim C8 at a concrete malformed input. -/
theorem claim_C8_witness :
    (0 ≤ (calculate_toc_change_significance .other (some (.list []))).1 ∧
      (calculate_toc_change_significance .other (some (.list []))).1 ≤ 10) ∧
    (calculate_toc_change_significance .other (some (.list []))).1 = 5 ∧
    (calculate_toc_change_significance .other (some (.list []))).2 ≠ [] := by
  have h := claim_C8 .other (some (.list []))
  exact ⟨⟨h.1, h.2.1⟩, h.2.2 (.list []) rfl (by decide)⟩

/-- Witness for claim C7 at concrete inputs: a malformed line changes
nothing, and a well-formed heading line is parsed. -/
theorem claim_C7_witness :
    extractTocLines ["==A==".toList, "* item ==".toList, "==B==".toList] =
      extractTocLines ["==A==".toList, "==B==".toList] ∧
    ∃ s : Section, extractTocLines ["==C==".toList] = [s] ∧
      s.title = lineTitle "==C==".toList := by
  exact ⟨(claim_C7 ["==A==".toList] ["==B==".toList] "* item ==".toList).1 (by decide),
         (claim_C7 [] [] "==C==".toList).2 (by decide) (by decide)⟩

/-! ## Reflexivity of the sequence ratio -/

/-- A position below the length is read back by `get?`. -/
theorem get?_eq_getD {s : Str} {j : Nat} (h : j < s.length) :
    s.get? j = some (s.getD j ' ') := by
  simp [List.get?_eq_getElem?, List.getD, h, List.getElem?_eq_getElem]

/-- A popular position has run length zero. -/
theorem runLen_pop {s : Str} {x : Nat}
    (h : isPopular s (s.getD x ' ') = true) : runLen s x = 0 := by
  cases x <;> simp only [runLen] <;> rw [h] <;> simp

/-- A non-popular position extends the preceding run by one. -/
theorem runLen_np {s : Str} {x : Nat}
    (h : isPopular s (s.getD x ' ') = false) : runLen s x = prevRun s x + 1 := by
  cases x <;> simp only [runLen] <;> rw [h] <;> simp [prevRun]

/-- Membership in the raw position map. -/
theorem mem_b2jAll {b : Str} {c : Char} {j : Nat} :
    j ∈ b2jAll b c ↔ j < b.length ∧ b.get? j = some c := by
  simp [b2jAll, List.mem_filter, List.mem_range]

/-- The position map of a popular character is empty. -/
theorem b2j_pop {b : Str} {c : Char} (h : isPopular b c = true) :
    b2j b c = [] := by
  simp [b2j, h]

/-- The position map of a non-popular character is the raw one. -/
theorem b2j_np {b : Str} {c : Char} (h : isPopular b c = false) :
    b2j b c = b2jAll b c := by
  simp [b2j, h]

/-- Over the full windows, the window filter of `flmLine` keeps every
position. -/
theorem js_filter_eq (b : Str) (c : Char) :
    (b2j b c).filter (fun j => decide (0 ≤ j) && decide (j < b.length)) =
      b2j b c := by
  rw [List.filter_eq_self]
  intro j hj
  have hj' : j ∈ b2jAll b c := by
    by_cases hp : isPopular b c = true
    · rw [b2j_pop hp] at hj; simp at hj
    · rwa [b2j_np (by simpa using hp)] at hj
  have := mem_b2jAll.mp hj'
  simp [this.1]

/-- Splitting the range at an interior point. -/
theorem range_split {i n : Nat} (h : i < n) :
    List.range n = List.range' 0 i ++ i :: List.range' (i + 1) (n - (i + 1)) := by
  rw [List.range_eq_range']
  have h2 : List.range' 0 i ++ List.range' (0 + i) (n - i) =
      List.range' 0 ((n - i) + i) := List.range'_append_1 0 i (n - i)
  have h3 : (n - i) + i = n := by omega
  rw [h3] at h2
  rw [← h2, Nat.zero_add]
  have h4 : n - i = (n - (i + 1)) + 1 := by omega
  rw [h4, List.range'_succ]

/-- The raw position map of `s[i]` in `s` splits at the diagonal position
`i`, which it always contains. -/
theorem b2jAll_split {s : Str} {i : Nat} (hi : i < s.length) :
    b2jAll s (s.getD i ' ') =
      (List.range' 0 i).filter
        (fun j => decide (s.get? j = some (s.getD i ' '))) ++
      i :: (List.range' (i + 1) (s.length - (i + 1))).filter
        (fun j => decide (s.get? j = some (s.getD i ' '))) := by
  unfold b2jAll
  rw [range_split hi, List.filter_append, List.filter_cons]
  have hpi : decide (s.get? i = some (s.getD i ' ')) = true := by
    rw [get?_eq_getD hi]
    simp
  rw [hpi]
  simp

/-- Processing one line of `find_longest_match` on `(s, s)` preserves the
diagonal invariant. -/
theorem lineDiag {s : Str} {i : Nat} {st : FLMBest × (Nat → Nat)}
    (hi : i < s.length) (hD : DiagInv s i st) :
    DiagInv s (i + 1) (flmLine s s 0 s.length st i) := by
  obtain ⟨hD1, hD2, hD3, hD4, hD5⟩ := hD
  simp only [flmLine]
  rw [js_filter_eq]
  by_cases hpop : isPopular s (s.getD i ' ') = true
  · rw [b2j_pop hpop]
    simp only [List.foldl_nil]
    refine ⟨hD1, ?_, ?_, ?_, ?_⟩
    · intro x hx
      rcases Nat.lt_succ_iff_lt_or_eq.mp hx with h | h
      · exact hD2 x h
      · subst h
        rw [runLen_pop hpop]
        exact Nat.zero_le _
    · intro j; exact Nat.zero_le _
    · intro j; exact Nat.zero_le _
    · intro x hx hnp
      obtain rfl : x = i := by omega
      rw [hnp] at hpop
      exact absurd hpop (by simp)
  · have hnp : isPopular s (s.getD i ' ') = false := by simpa using hpop
    rw [b2j_np hnp, b2jAll_split hi, List.foldl_append, List.foldl_cons]
    have hruni : runLen s i = prevRun s i + 1 := runLen_np hnp
    -- Phase A: positions strictly left of the diagonal change nothing of
    -- the best block.
    have hA := foldl_inv
      (P := fun t : FLMBest × (Nat → Nat) =>
        t.1 = st.1 ∧ (∀ j, t.2 j ≤ runLen s j) ∧ (∀ j, t.2 j ≤ runLen s i))
      (f := flmJ i st.2)
      ((List.range' 0 i).filter
        (fun j => decide (s.get? j = some (s.getD i ' '))))
      (st.1, fun _ => 0)
      ⟨rfl, fun _ => Nat.zero_le _, fun _ => Nat.zero_le _⟩
      (by
        intro t j hjmem hP
        obtain ⟨ht1, ht2, ht3⟩ := hP
        have hm := List.mem_filter.mp hjmem
        have hji : j < i := by
          have := List.mem_range'.mp hm.1
          omega
        have hjc : s.get? j = some (s.getD i ' ') := by
          have := hm.2
          simpa using this
        have hjn : j < s.length := by omega
        have hgd : s.getD j ' ' = s.getD i ' ' := by
          have := get?_eq_getD hjn
          rw [this] at hjc
          exact Option.some.inj hjc
        have hnpj : isPopular s (s.getD j ' ') = false := by rw [hgd]; exact hnp
        have hrunj : runLen s j = prevRun s j + 1 := runLen_np hnpj
        have hk_runj : (if j = 0 then 0 else st.2 (j - 1)) + 1 ≤ runLen s j := by
          by_cases hj0 : j = 0
          · subst hj0
            simp only [if_pos rfl]
            simp [hrunj, prevRun]
          · simp only [if_neg hj0]
            have h3 := hD3 (j - 1)
            have hpj : prevRun s j = runLen s (j - 1) := by
              obtain ⟨m, rfl⟩ : ∃ m, j = m + 1 := ⟨j - 1, by omega⟩
              rfl
            omega
        have hk_runi : (if j = 0 then 0 else st.2 (j - 1)) + 1 ≤ runLen s i := by
          by_cases hj0 : j = 0
          · simp only [if_pos hj0]
            omega
          · simp only [if_neg hj0]
            have h4 := hD4 (j - 1)
            omega
        have hnu : ¬ (t.1.bestsize < (if j = 0 then 0 else st.2 (j - 1)) + 1) := by
          rw [ht1]
          have := hD2 j hji
          omega
        refine ⟨?_, ?_, ?_⟩
        · rw [flmJ_fst, if_neg hnu]
          exact ht1
        · intro x
          rw [flmJ_snd]
          by_cases hx : x = j
          · rw [if_pos hx]; subst hx; exact hk_runj
          · rw [if_neg hx]; exact ht2 x
        · intro x
          rw [flmJ_snd]
          by_cases hx : x = j
          · rw [if_pos hx]; subst hx; exact hk_runi
          · rw [if_neg hx]; exact ht3 x)
    obtain ⟨hA1, hA2, hA3⟩ := hA
    set tA := ((List.range' 0 i).filter
      (fun j => decide (s.get? j = some (s.getD i ' ')))).foldl
      (flmJ i st.2) (st.1, fun _ => 0) with htA
    -- The diagonal step: forces the best size up to the current run length
    -- while staying diagonal.
    have klow : runLen s i ≤ (if i = 0 then 0 else st.2 (i - 1)) + 1 := by
      by_cases hi0 : i = 0
      · subst hi0
        simp only [if_pos rfl]
        simp [hruni, prevRun]
      · simp only [if_neg hi0]
        obtain ⟨m, rfl⟩ : ∃ m, i = m + 1 := ⟨i - 1, by omega⟩
        have hpm : prevRun s (m + 1) = runLen s m := rfl
        by_cases hnpm : isPopular s (s.getD m ' ') = false
        · have := hD5 m rfl hnpm
          simpa [hruni, hpm] using by omega
        · have hpm0 : runLen s m = 0 := runLen_pop (by simpa using hnpm)
          omega
    have khigh : (if i = 0 then 0 else st.2 (i - 1)) + 1 ≤ runLen s i := by
      by_cases hi0 : i = 0
      · subst hi0
        simp only [if_pos rfl]
        simp [hruni, prevRun]
      · simp only [if_neg hi0]
        have h3 := hD3 (i - 1)
        have hpm : prevRun s i = runLen s (i - 1) := by
          obtain ⟨m, rfl⟩ : ∃ m, i = m + 1 := ⟨i - 1, by omega⟩
          rfl
        omega
    set u := flmJ i st.2 tA i with hu
    have hu1 : u.1.besti = u.1.bestj ∧ st.1.bestsize ≤ u.1.bestsize ∧
        runLen s i ≤ u.1.bestsize := by
      rw [hu, flmJ_fst]
      by_cases hup : tA.1.bestsize < (if i = 0 then 0 else st.2 (i - 1)) + 1
      · rw [if_pos hup]
        rw [hA1] at hup
        refine ⟨rfl, ?_, ?_⟩
        · show st.1.bestsize ≤ (if i = 0 then 0 else st.2 (i - 1)) + 1
          omega
        · show runLen s i ≤ (if i = 0 then 0 else st.2 (i - 1)) + 1
          exact klow
      · rw [if_neg hup]
        rw [hA1] at hup ⊢
        exact ⟨hD1, le_rfl, by omega⟩
    have hu2 : ∀ j, u.2 j ≤ runLen s j := by
      intro x
      rw [hu, flmJ_snd]
      by_cases hx : x = i
      · rw [if_pos hx]; subst hx; exact khigh
      · rw [if_neg hx]; exact hA2 x
    have hu3 : ∀ j, u.2 j ≤ runLen s i := by
      intro x
      rw [hu, flmJ_snd]
      by_cases hx : x = i
      · rw [if_pos hx]; subst hx; exact khigh
      · rw [if_neg hx]; exact hA3 x
    have hu4 : runLen s i ≤ u.2 i := by
      rw [hu, flmJ_snd, if_pos rfl]
      exact klow
    -- Phase B: positions right of the diagonal cannot beat the updated
    -- best block.
    have hB := foldl_inv
      (P := fun v : FLMBest × (Nat → Nat) =>
        v.1 = u.1 ∧ (∀ j, v.2 j ≤ runLen s j) ∧ (∀ j, v.2 j ≤ runLen s i) ∧
          runLen s i ≤ v.2 i)
      (f := flmJ i st.2)
      ((List.range' (i + 1) (s.length - (i + 1))).filter
        (fun j => decide (s.get? j = some (s.getD i ' '))))
      u
      ⟨rfl, hu2, hu3, hu4⟩
      (by
        intro v j hjmem hP
        obtain ⟨hv1, hv2, hv3, hv4⟩ := hP
        have hm := List.mem_filter.mp hjmem
        have hji : i + 1 ≤ j ∧ j < s.length := by
          have := List.mem_range'.mp hm.1
          omega
        have hjc : s.get? j = some (s.getD i ' ') := by
          have := hm.2
          simpa using this
        have hgd : s.getD j ' ' = s.getD i ' ' := by
          have := get?_eq_getD hji.2
          rw [this] at hjc
          exact Option.some.inj hjc
        have hnpj : isPopular s (s.getD j ' ') = false := by rw [hgd]; exact hnp
        have hrunj : runLen s j = prevRun s j + 1 := runLen_np hnpj
        have hj0 : j ≠ 0 := by omega
        have hk_runi : (if j = 0 then 0 else st.2 (j - 1)) + 1 ≤ runLen s i := by
          simp only [if_neg hj0]
          have h4 := hD4 (j - 1)
          omega
        have hk_runj : (if j = 0 then 0 else st.2 (j - 1)) + 1 ≤ runLen s j := by
          simp only [if_neg hj0]
          have h3 := hD3 (j - 1)
          have hpj : prevRun s j = runLen s (j - 1) := by
            obtain ⟨m, rfl⟩ : ∃ m, j = m + 1 := ⟨j - 1, by omega⟩
            rfl
          omega
        have hnu : ¬ (v.1.bestsize < (if j = 0 then 0 else st.2 (j - 1)) + 1) := by
          rw [hv1]
          have := hu1.2.2
          omega
        refine ⟨?_, ?_, ?_, ?_⟩
        · rw [flmJ_fst, if_neg hnu]
          exact hv1
        · intro x
          rw [flmJ_snd]
          by_cases hx : x = j
          · rw [if_pos hx]; subst hx; exact hk_runj
          · rw [if_neg hx]; exact hv2 x
        · intro x
          rw [flmJ_snd]
          by_cases hx : x = j
          · rw [if_pos hx]; subst hx; exact hk_runi
          · rw [if_neg hx]; exact hv3 x
        · rw [flmJ_snd]
          have hne : i ≠ j := by omega
          rw [if_neg hne]
          exact hv4)
    obtain ⟨hw1, hw2, hw3, hw4⟩ := hB
    refine ⟨?_, ?_, ?_, ?_, ?_⟩
    · rw [hw1]; exact hu1.1
    · intro x hx
      rw [hw1]
      rcases Nat.lt_succ_iff_lt_or_eq.mp hx with h | h
      · have := hD2 x h
        have := hu1.2.1
        omega
      · subst h
        exact hu1.2.2
    · exact hw2
    · intro j
      have := hw3 j
      simpa [prevRun] using this
    · intro x hx _
      obtain rfl : x = i := by omega
      exact hw4

/-- The dynamic-programming phase on `(s, s)` keeps the diagonal invariant
across any prefix of lines. -/
theorem flmAuxDiag {s : Str} :
    ∀ (len i : Nat) (st : FLMBest × (Nat → Nat)), i + len ≤ s.length →
      DiagInv s i st →
      DiagInv s (i + len) ((List.range' i len).foldl (flmLine s s 0 s.length) st) := by
  intro len
  induction len with
  | zero => intro i st _ hD; simpa using hD
  | succ n ih =>
    intro i st hlen hD
    rw [List.range'_succ, List.foldl_cons]
    have h1 := lineDiag (by omega) hD
    have h2 := ih (i + 1) _ (by omega) h1
    have h3 : i + 1 + n = i + (n + 1) := by omega
    rwa [h3] at h2

/-- The dynamic-programming phase on `(s, s)` over the full windows
returns a diagonal best block. -/
theorem flmLoop_diag (s : Str) :
    (flmLoop s s 0 s.length 0 s.length).besti =
      (flmLoop s s 0 s.length 0 s.length).bestj := by
  unfold flmLoop
  have h0 : DiagInv s 0 ((⟨0, 0, 0⟩ : FLMBest), fun _ => (0 : Nat)) := by
    refine ⟨rfl, ?_, ?_, ?_, ?_⟩
    · intro x hx; omega
    · intro j; exact Nat.zero_le _
    · intro j; exact Nat.zero_le _
    · intro x hx; omega
  have h := flmAuxDiag (s.length - 0) 0 (⟨0, 0, 0⟩, fun _ => 0) (by omega) h0
  exact h.1

/-- Backward extension from a diagonal block on `(s, s)` rolls it all the
way to the origin. -/
theorem extendBack_diag (s : Str) :
    ∀ (d bs : Nat), extendBack s s 0 0 d d bs = ⟨0, 0, bs + d⟩ := by
  intro d
  induction d with
  | zero =>
    intro bs
    rw [extendBack, dif_neg (by omega)]
    simp
  | succ n ih =>
    intro bs
    rw [extendBack, dif_pos ⟨by omega, by omega, rfl⟩]
    have := ih (bs + 1)
    simp only [Nat.add_sub_cancel]
    rw [this]
    congr 1
    omega

/-- Forward extension from the origin on `(s, s)` reaches the full
length. -/
theorem extendFwd_diag (s : Str) :
    ∀ (m k : Nat), s.length - k ≤ m → k ≤ s.length →
      extendFwd s s s.length s.length 0 0 k = s.length := by
  intro m
  induction m with
  | zero =>
    intro k h1 h2
    rw [extendFwd, dif_neg (by omega)]
    omega
  | succ n ih =>
    intro k h1 h2
    by_cases hk : k < s.length
    · rw [extendFwd, dif_pos ⟨by omega, by omega, rfl⟩]
      exact ih (k + 1) (by omega) (by omega)
    · rw [extendFwd, dif_neg (by omega)]
      omega

/-- On two copies of the same string, `find_longest_match` over the full
windows returns the whole string as a single block. -/
theorem flm_refl (s : Str) :
    find_longest_match s s 0 s.length 0 s.length = ⟨0, 0, s.length⟩ := by
  simp only [find_longest_match]
  have hdiag := flmLoop_diag s
  have hB := flmLoop_BInv s s 0 s.length 0 s.length
  set d := flmLoop s s 0 s.length 0 s.length with hd
  rw [← hdiag]
  rw [extendBack_diag s d.besti d.bestsize]
  have hk0 : d.bestsize + d.besti ≤ s.length := by
    rcases hB with ⟨h0, h1, h2⟩ | ⟨h1, h2, h3, h4⟩ <;> omega
  have hfwd := extendFwd_diag s s.length (d.bestsize + d.besti) (by omega) hk0
  simp only
  rw [hfwd]

/-- On two copies of the same string the summed matched size is the whole
length. -/
theorem pyMatches_refl (s : Str) : pyMatches s s = s.length := by
  unfold pyMatches
  simp only [matchesInF, flm_refl s]
  by_cases h : s.length = 0
  · simp [h]
  · rw [if_neg (by simpa using h)]
    rw [if_neg (by simp), if_neg (by simp)]
    simp

/-- The sequence ratio of a string with itself is 1. -/
theorem ratioScore_refl (s : Str) : ratioScore s s = 1 := by
  unfold ratioScore
  by_cases h : s.length + s.length = 0
  · rw [if_pos h]
  · rw [if_neg h]
    rw [pyMatches_refl]
    have hL : s.length ≠ 0 := by omega
    have h2 : ((s.length + s.length : Nat) : ℚ) = 2 * (s.length : ℚ) := by
      push_cast; ring
    rw [h2, div_self]
    exact mul_ne_zero two_ne_zero (by exact_mod_cast hL)

/-! ## Claims about the Title Similarity Scorer -/

/-- The similarity score always lies in [0, 1]. -/
theorem similarity_bounds (a b : Str) : 0 ≤ similarity a b ∧ similarity a b ≤ 1 := by
  unfold similarity
  obtain ⟨hr0, hr1⟩ := ratioScore_bounds (strLower a) (strLower b)
  set r := ratioScore (strLower a) (strLower b) with hr
  set f := (if 0 < max a.length b.length
    then ((min a.length b.length : Nat) : ℚ) / ((max a.length b.length : Nat) : ℚ)
    else 0) with hf
  set q := (if strLower (a.take (min 3 a.length)) = strLower (b.take (min 3 b.length))
    then ((min 3 (min a.length b.length) : Nat) : ℚ)
    else 0) with hq
  have hf0 : 0 ≤ f ∧ f ≤ 1 := by
    rw [hf]
    split
    · constructor
      · positivity
      · rename_i hmax
        rw [div_le_one (by exact_mod_cast hmax)]
        exact_mod_cast min_le_max
    · norm_num
  have hq0 : 0 ≤ q ∧ q ≤ 3 := by
    rw [hq]
    split
    · constructor
      · positivity
      · exact_mod_cast min_le_left 3 _
    · norm_num
  obtain ⟨hf1, hf2⟩ := hf0
  obtain ⟨hq1, hq2⟩ := hq0
  constructor
  · nlinarith
  · nlinarith

/-- The similarity of a string of length at least 3 with itself is 1 (the
ratio is 1, the length factor is 1, and the prefix bonus saturates). -/
theorem similarity_self (a : Str) (h : 3 ≤ a.length) : similarity a a = 1 := by
  unfold similarity
  rw [ratioScore_refl]
  rw [max_self, min_self]
  rw [if_pos (by omega), if_pos rfl]
  have h3 : min 3 a.length = 3 := by omega
  rw [h3]
  have hne : ((a.length : Nat) : ℚ) ≠ 0 := by
    have h0 : a.length ≠ 0 := by omega
    exact_mod_cast h0
  rw [div_self hne]
  norm_num

/-- Claim C5, as stated, is false: for the one-character title `"x"`,
`similarity("x","x") = 0.8 + 0.1 + (1/3) * 0.1 = 14/15 ≠ 1` — the prefix
bonus `min(3, len) / 3` does not saturate for titles shorter than three
characters. -/
theorem claim_C5_counterexample :
    similarity ['x'] ['x'] = 14 / 15 ∧ similarity ['x'] ['x'] ≠ 1 := by
  have h : similarity ['x'] ['x'] = 14 / 15 := by
    unfold similarity
    rw [ratioScore_refl]
    norm_num
  refine ⟨h, ?_⟩
  rw [h]
  norm_num

/-- Claim C5, amended: `0 ≤ similarity(a,b) ≤ 1` holds for all strings
(hence for all non-empty ones), and `similarity(a,a) = 1` holds for every
string of length at least 3; for shorter strings the prefix bonus does not
saturate and the self-similarity falls short of 1. -/
theorem claim_C5 (a b : Str) :
    (0 ≤ similarity a b ∧ similarity a b ≤ 1) ∧
    (3 ≤ a.length → similarity a a = 1) :=
  ⟨similarity_bounds a b, fun h => similarity_self a h⟩

/-- Witness for the amended claim C5 at concrete inputs. -/
theorem claim_C5_witness :
    (0 ≤ similarity "Uses".toList "Applications".toList ∧
      similarity "Uses".toList "Applications".toList ≤ 1) ∧
    similarity "abc".toList "abc".toList = 1 :=
  ⟨(claim_C5 "Uses".toList "Applications".toList).1,
   (claim_C5 "abc".toList "xyz".toList).2 (by decide)⟩

/-! ## Claims about the Rename/Diff Resolver -/

/-- An element of an updated dict is the new binding or an old binding at a
different key. -/
theorem mem_dictInsert {m : List (Str × Str)} {k v : Str} {p : Str × Str}
    (h : p ∈ dictInsert m k v) : p = (k, v) ∨ (p ∈ m ∧ p.1 ≠ k) := by
  unfold dictInsert at h
  split at h
  · rw [List.mem_map] at h
    obtain ⟨q, hq, hfq⟩ := h
    by_cases hk : q.1 = k
    · rw [if_pos hk] at hfq
      exact Or.inl hfq.symm
    · rw [if_neg hk] at hfq
      exact Or.inr ⟨hfq ▸ hq, hfq ▸ hk⟩
  · rename_i hany
    rcases List.mem_append.mp h with h1 | h1
    · refine Or.inr ⟨h1, ?_⟩
      intro hk
      exact hany (List.any_eq_true.mpr ⟨p, h1, by simp [hk]⟩)
    · exact Or.inl (List.mem_singleton.mp h1)

/-- A dict update preserves the set of keys or appends the new one. -/
theorem dictInsert_keys_nodup {m : List (Str × Str)} {k v : Str}
    (h : (m.map Prod.fst).Nodup) :
    ((dictInsert m k v).map Prod.fst).Nodup := by
  unfold dictInsert
  split
  · have heq : (m.map (fun p => if p.1 = k then (k, v) else p)).map Prod.fst =
        m.map Prod.fst := by
      rw [List.map_map]
      refine List.map_congr_left ?_
      intro q _
      by_cases hk : q.1 = k
      · simp [hk]
      · simp [hk]
    rw [heq]
    exact h
  · rename_i hany
    rw [List.map_append]
    simp only [List.map_cons, List.map_nil]
    rw [List.nodup_append]
    refine ⟨h, List.nodup_singleton k, ?_⟩
    intro x hx
    simp only [List.mem_singleton]
    intro hk
    subst hk
    rw [List.mem_map] at hx
    obtain ⟨q, hq, hfq⟩ := hx
    exact hany (List.any_eq_true.mpr ⟨q, hq, by simp [hfq]⟩)

/-- Keys survive a dict update. -/
theorem dictInsert_keys_mono {m : List (Str × Str)} {k v x : Str}
    (h : x ∈ m.map Prod.fst) : x ∈ (dictInsert m k v).map Prod.fst := by
  unfold dictInsert
  split
  · have heq : (m.map (fun p => if p.1 = k then (k, v) else p)).map Prod.fst =
        m.map Prod.fst := by
      rw [List.map_map]
      refine List.map_congr_left ?_
      intro q _
      by_cases hk : q.1 = k
      · simp [hk]
      · simp [hk]
    rw [heq]
    exact h
  · rw [List.map_append]
    exact List.mem_append_left _ h

/-- The assigned key is a key of the updated dict. -/
theorem dictInsert_key_self (m : List (Str × Str)) (k v : Str) :
    k ∈ (dictInsert m k v).map Prod.fst := by
  unfold dictInsert
  split
  · rename_i hany
    rw [List.any_eq_true] at hany
    obtain ⟨q, hq, hqk⟩ := hany
    rw [List.mem_map]
    refine ⟨(k, v), ?_, rfl⟩
    rw [List.mem_map]
    refine ⟨q, hq, ?_⟩
    rw [if_pos (by simpa using hqk)]
  · rw [List.map_append]
    refine List.mem_append_right _ ?_
    simp

/-- Updating a dict at a fresh key appends the binding. -/
theorem dictInsert_fresh {m : List (Str × Str)} {k : Str}
    (h : k ∉ m.map Prod.fst) (v : Str) : dictInsert m k v = m ++ [(k, v)] := by
  unfold dictInsert
  rw [if_neg]
  intro hany
  rw [List.any_eq_true] at hany
  obtain ⟨q, hq, hqk⟩ := hany
  exact h (List.mem_map.mpr ⟨q, hq, by simpa using hqk⟩)

/-- A successful dict lookup exhibits a binding. -/
theorem dictGet_mem {m : List (Str × Str)} {kl v : Str}
    (h : dictGet m kl = some v) : (kl, v) ∈ m := by
  unfold dictGet at h
  rw [Option.map_eq_some'] at h
  obtain ⟨p, hp, hv⟩ := h
  have h1 := List.mem_of_find?_eq_some hp
  have h2 := List.find?_some hp
  simp only [decide_eq_true_eq] at h2
  have : p = (kl, v) := by
    cases p
    simp only at h2 hv
    simp [h2, hv]
  exact this ▸ h1

/-- A present key looks up to some value. -/
theorem dictGet_of_mem_keys {m : List (Str × Str)} {kl : Str}
    (h : kl ∈ m.map Prod.fst) : ∃ v, dictGet m kl = some v := by
  unfold dictGet
  rw [List.mem_map] at h
  obtain ⟨p, hp, hk⟩ := h
  have : (m.find? (fun p => decide (p.1 = kl))).isSome := by
    rw [List.find?_isSome]
    exact ⟨p, hp, by simp [hk]⟩
  obtain ⟨q, hq⟩ := Option.isSome_iff_exists.mp this
  exact ⟨q.2, by rw [hq]; rfl⟩

/-- Bindings of a lower-case index map built over `l`: the value is an
element of `l` and the key is its lower-casing. -/
theorem lowerFold_mem {l : List Str} {p : Str × Str}
    (h : p ∈ l.foldl (fun m s => dictInsert m (strLower s) s) []) :
    p.2 ∈ l ∧ strLower p.2 = p.1 := by
  have hinv := foldl_inv
    (P := fun m : List (Str × Str) => ∀ q ∈ m, q.2 ∈ l ∧ strLower q.2 = q.1)
    (f := fun m s => dictInsert m (strLower s) s) l []
    (by intro q hq; simp at hq)
    (by
      intro m s hs hm q hq
      rcases mem_dictInsert hq with h1 | h1
      · subst h1; exact ⟨hs, rfl⟩
      · exact hm q h1.1)
  exact hinv p h

/-- The best candidate comes from the candidate list. -/
theorem bestCand_mem {l : List (Str × ℚ)} {c : Str × ℚ}
    (h : bestCand l = some c) : c ∈ l := by
  match l with
  | [] => simp [bestCand] at h
  | d :: rest =>
    simp only [bestCand, Option.some.injEq] at h
    subst h
    have hinv := foldl_inv
      (P := fun acc : Str × ℚ => acc ∈ d :: rest)
      (f := fun acc e => if acc.2 < e.2 then e else acc) rest d
      (List.mem_cons_self d rest)
      (by
        intro acc e he hacc
        by_cases hlt : acc.2 < e.2
        · simpa [hlt] using List.mem_cons_of_mem d he
        · simpa [hlt] using hacc)
    exact hinv

/-- Invariant of the case-rename double loop: keys are distinct, keys come
from the current pool, values from the previous pool, and every binding is
a case-variant pair. -/
theorem caseFold_inv (prevR currR : List Str) :
    (((prevR.foldl (fun m old => currR.foldl (fun m' new =>
        if strLower old = strLower new ∧ old ≠ new then dictInsert m' new old
        else m') m) []).map Prod.fst).Nodup) ∧
    (∀ p ∈ prevR.foldl (fun m old => currR.foldl (fun m' new =>
        if strLower old = strLower new ∧ old ≠ new then dictInsert m' new old
        else m') m) [],
      p.1 ∈ currR ∧ p.2 ∈ prevR ∧ strLower p.1 = strLower p.2) := by
  have h := foldl_inv
    (P := fun m : List (Str × Str) => ((m.map Prod.fst).Nodup) ∧
      ∀ p ∈ m, p.1 ∈ currR ∧ p.2 ∈ prevR ∧ strLower p.1 = strLower p.2)
    (f := fun m old => currR.foldl (fun m' new =>
      if strLower old = strLower new ∧ old ≠ new then dictInsert m' new old
      else m') m)
    prevR []
    (⟨List.nodup_nil, by intro p hp; simp at hp⟩)
    (by
      intro m old hold hm
      exact foldl_inv
        (P := fun m' : List (Str × Str) => ((m'.map Prod.fst).Nodup) ∧
          ∀ p ∈ m', p.1 ∈ currR ∧ p.2 ∈ prevR ∧ strLower p.1 = strLower p.2)
        (f := fun m' new =>
          if strLower old = strLower new ∧ old ≠ new then dictInsert m' new old
          else m')
        currR m hm
        (by
          intro m' new hnew hm'
          beta_reduce
          by_cases hg : strLower old = strLower new ∧ old ≠ new
          · rw [if_pos hg]
            refine ⟨dictInsert_keys_nodup hm'.1, ?_⟩
            intro p hp
            rcases mem_dictInsert hp with h1 | h1
            · subst h1
              exact ⟨hnew, hold, hg.1.symm⟩
            · exact hm'.2 p h1.1
          · rw [if_neg hg]
            exact hm'))
  exact h

/-- Keys survive the inner loop of the case-rename pass. -/
theorem caseInner_keys_mono (old x : Str) (currR : List Str)
    (m : List (Str × Str)) (h : x ∈ m.map Prod.fst) :
    x ∈ ((currR.foldl (fun m' new =>
      if strLower old = strLower new ∧ old ≠ new then dictInsert m' new old
      else m') m).map Prod.fst) := by
  refine foldl_inv (P := fun m' : List (Str × Str) => x ∈ m'.map Prod.fst)
    (f := fun m' new =>
      if strLower old = strLower new ∧ old ≠ new then dictInsert m' new old
      else m') currR m h ?_
  intro m' new _ hx
  beta_reduce
  by_cases hg : strLower old = strLower new ∧ old ≠ new
  · rw [if_pos hg]; exact dictInsert_keys_mono hx
  · rw [if_neg hg]; exact hx

/-- Keys survive the outer loop of the case-rename pass. -/
theorem caseOuter_keys_mono (x : Str) (prevR currR : List Str)
    (m : List (Str × Str)) (h : x ∈ m.map Prod.fst) :
    x ∈ ((prevR.foldl (fun m old => currR.foldl (fun m' new =>
      if strLower old = strLower new ∧ old ≠ new then dictInsert m' new old
      else m') m) m).map Prod.fst) := by
  refine foldl_inv (P := fun m' : List (Str × Str) => x ∈ m'.map Prod.fst)
    (f := fun m old => currR.foldl (fun m' new =>
      if strLower old = strLower new ∧ old ≠ new then dictInsert m' new old
      else m') m) prevR m h ?_
  intro m' old _ hx
  exact caseInner_keys_mono old x currR m' hx

/-- The inner loop of the case-rename pass records any case-variant of
`old` present in the current pool. -/
theorem caseInner_complete (old new : Str) (hl : strLower old = strLower new)
    (hne : old ≠ new) :
    ∀ (currR : List Str) (m : List (Str × Str)), new ∈ currR →
      new ∈ ((currR.foldl (fun m' new' =>
        if strLower old = strLower new' ∧ old ≠ new' then dictInsert m' new' old
        else m') m).map Prod.fst) := by
  intro currR
  induction currR with
  | nil => intro m hn; simp at hn
  | cons c rest ih =>
    intro m hn
    rw [List.foldl_cons]
    rcases List.mem_cons.mp hn with h1 | h1
    · subst h1
      rw [if_pos ⟨hl, hne⟩]
      exact caseInner_keys_mono old new rest _ (dictInsert_key_self m new old)
    · exact ih _ h1

/-- The whole case-rename double loop records every case-variant pair of
the two pools: a current-pool case-variant of any previous-pool title ends
up as a key. -/
theorem caseFold_complete (old new : Str) (hl : strLower old = strLower new)
    (hne : old ≠ new) (currR : List Str) (hn : new ∈ currR) :
    ∀ (prevR : List Str) (m : List (Str × Str)), old ∈ prevR →
      new ∈ ((prevR.foldl (fun m old' => currR.foldl (fun m' new' =>
        if strLower old' = strLower new' ∧ old' ≠ new' then dictInsert m' new' old'
        else m') m) m).map Prod.fst) := by
  intro prevR
  induction prevR with
  | nil => intro m ho; simp at ho
  | cons p rest ih =>
    intro m ho
    rw [List.foldl_cons]
    rcases List.mem_cons.mp ho with h1 | h1
    · subst h1
      exact caseOuter_keys_mono new rest currR _
        (caseInner_complete old new hl hne currR m hn)
    · exact ih _ h1

/-- Keys of the case-rename map are distinct; every binding is a
case-variant pair with key from the current titles and value from the
previous titles, none of them exact matches. -/
theorem caseRenames_inv (prev_sections curr_sections : List Str) :
    (((caseRenames prev_sections curr_sections).map Prod.fst).Nodup) ∧
    (∀ p ∈ caseRenames prev_sections curr_sections,
      (p.1 ∈ curr_sections ∧ p.1 ∉ exactMatches prev_sections curr_sections) ∧
      (p.2 ∈ prev_sections ∧ p.2 ∉ exactMatches prev_sections curr_sections) ∧
      strLower p.1 = strLower p.2) := by
  have h := caseFold_inv
    (prev_sections.filter (fun t =>
      decide (t ∉ exactMatches prev_sections curr_sections)))
    (curr_sections.filter (fun t =>
      decide (t ∉ exactMatches prev_sections curr_sections)))
  refine ⟨h.1, ?_⟩
  intro p hp
  obtain ⟨h1, h2, h3⟩ := h.2 p hp
  have h1' := List.mem_filter.mp h1
  have h2' := List.mem_filter.mp h2
  simp only [decide_eq_true_eq] at h1' h2'
  exact ⟨h1', h2', h3⟩

/-- The fall-back case pass of `detect_renamed_sections` never adds
anything: the explicit double loop is already exhaustive, so the
lower-case index maps of the remaining titles share no key. -/
theorem caseRenames2_eq (prev_sections curr_sections : List Str) :
    caseRenames2 prev_sections curr_sections =
      caseRenames prev_sections curr_sections := by
  unfold caseRenames2
  refine foldl_inv
    (P := fun m : List (Str × Str) => m = caseRenames prev_sections curr_sections)
    _ _ rfl ?_
  intro m kl hkl hm
  beta_reduce
  obtain ⟨po, hpo⟩ := dictGet_of_mem_keys hkl
  have hpomem := dictGet_mem hpo
  have hpoprops := lowerFold_mem (l := prev_sections.filter (fun t =>
    decide (t ∉ exactMatches prev_sections curr_sections) &&
    decide (t ∉ (caseRenames prev_sections curr_sections).map Prod.snd)))
    (p := (kl, po)) hpomem
  have hpof := List.mem_filter.mp hpoprops.1
  simp only [Bool.and_eq_true, decide_eq_true_eq] at hpof
  cases hco : dictGet (lowerIndex (curr_sections.filter (fun t =>
      decide (t ∉ exactMatches prev_sections curr_sections) &&
      decide (t ∉ (caseRenames prev_sections curr_sections).map Prod.fst)))) kl with
  | none =>
    simp only [hpo, hco]
    exact hm
  | some co =>
    exfalso
    have hcomem := dictGet_mem hco
    have hcoprops := lowerFold_mem (l := curr_sections.filter (fun t =>
      decide (t ∉ exactMatches prev_sections curr_sections) &&
      decide (t ∉ (caseRenames prev_sections curr_sections).map Prod.fst)))
      (p := (kl, co)) hcomem
    have hcof := List.mem_filter.mp hcoprops.1
    simp only [Bool.and_eq_true, decide_eq_true_eq] at hcof
    have hponc : po ∉ curr_sections := by
      intro hmem
      exact hpof.2.1 (List.mem_filter.mpr ⟨hpof.1, by simpa using hmem⟩)
    have hne : po ≠ co := by
      intro heq
      exact hponc (heq ▸ hcof.1)
    have hlow : strLower po = strLower co := by
      rw [hpoprops.2, hcoprops.2]
    have hkeys := caseFold_complete po co hlow hne
      (curr_sections.filter (fun t =>
        decide (t ∉ exactMatches prev_sections curr_sections)))
      (List.mem_filter.mpr ⟨hcof.1, by simpa using hcof.2.1⟩)
      (prev_sections.filter (fun t =>
        decide (t ∉ exactMatches prev_sections curr_sections)))
      []
      (List.mem_filter.mpr ⟨hpof.1, by simpa using hpof.2.1⟩)
    exact hcof.2.2 (by simpa [caseRenames] using hkeys)

/-- The similarity-rename fold keeps keys distinct, takes its values from
the previous titles minus exact matches, and creates duplicate values only
among case-variant keys. -/
theorem simFold_inv (prev_sections : List Str) (exact : List Str) :
    ∀ (rem : List Str) (st : List (Str × Str) × List Str),
      (st.1.map Prod.fst).Nodup →
      (∀ p ∈ st.1, p.2 ∈ prev_sections ∧ p.2 ∉ exact) →
      (∀ p ∈ st.1, ∀ q ∈ st.1, p.2 = q.2 → p.1 ≠ q.1 →
        strLower p.1 = strLower p.2 ∧ strLower q.1 = strLower q.2) →
      st.2.Nodup →
      (∀ k ∈ st.2, k ∉ st.1.map Prod.fst) →
      rem.Nodup →
      (∀ o ∈ rem, o ∉ st.1.map Prod.snd) →
      (∀ o ∈ rem, o ∈ prev_sections ∧ o ∉ exact) →
      ((((rem.foldl simStep st).1.map Prod.fst).Nodup) ∧
       (∀ p ∈ (rem.foldl simStep st).1, p.2 ∈ prev_sections ∧ p.2 ∉ exact) ∧
       (∀ p ∈ (rem.foldl simStep st).1, ∀ q ∈ (rem.foldl simStep st).1,
         p.2 = q.2 → p.1 ≠ q.1 →
         strLower p.1 = strLower p.2 ∧ strLower q.1 = strLower q.2)) := by
  intro rem
  induction rem with
  | nil =>
    intro st h1 h2 h3 _ _ _ _ _
    exact ⟨h1, h2, h3⟩
  | cons o rest ih =>
    intro st h1 h2 h3 h4 h5 h6 h7 h8
    rw [List.foldl_cons]
    rcases hbc : bestCand (st.2.filterMap (fun new =>
      let sc := similarity o new
      if (0.65 : ℚ) < sc then some (new, sc) else none)) with _ | c
    · have hstep : simStep st o = st := by
        simp only [simStep]
        rw [hbc]
      rw [hstep]
      exact ih st h1 h2 h3 h4 h5 (List.Nodup.of_cons h6)
        (fun o' ho' => h7 o' (List.mem_cons_of_mem o ho'))
        (fun o' ho' => h8 o' (List.mem_cons_of_mem o ho'))
    · have hcmem := bestCand_mem hbc
      rw [List.mem_filterMap] at hcmem
      obtain ⟨new, hnew, hsome⟩ := hcmem
      have hc1 : c.1 ∈ st.2 := by
        by_cases hq : (0.65 : ℚ) < similarity o new
        · simp only [if_pos hq, Option.some.injEq] at hsome
          rw [← hsome]
          exact hnew
        · simp [if_neg hq] at hsome
      have hstep : simStep st o = (dictInsert st.1 c.1 o, st.2.erase c.1) := by
        simp only [simStep]
        rw [hbc]
      rw [hstep]
      have hfresh : c.1 ∉ st.1.map Prod.fst := h5 c.1 hc1
      have hins : dictInsert st.1 c.1 o = st.1 ++ [(c.1, o)] :=
        dictInsert_fresh hfresh o
      have hoval : o ∉ st.1.map Prod.snd := h7 o (List.mem_cons_self o rest)
      have hmem_split : ∀ p, p ∈ dictInsert st.1 c.1 o → p ∈ st.1 ∨ p = (c.1, o) := by
        intro p hp
        rw [hins] at hp
        rcases List.mem_append.mp hp with h | h
        · exact Or.inl h
        · exact Or.inr (List.mem_singleton.mp h)
      refine ih (dictInsert st.1 c.1 o, st.2.erase c.1) ?_ ?_ ?_ ?_ ?_
        (List.Nodup.of_cons h6) ?_ ?_
      · rw [hins, List.map_append]
        simp only [List.map_cons, List.map_nil]
        rw [List.nodup_append]
        exact ⟨h1, List.nodup_singleton _, by
          intro x hx
          simp only [List.mem_singleton]
          intro hxe
          subst hxe
          exact hfresh hx⟩
      · intro p hp
        rcases hmem_split p hp with h | h
        · exact h2 p h
        · subst h
          exact h8 o (List.mem_cons_self o rest)
      · intro p hp q hq hpq hne
        rcases hmem_split p hp with hp1 | hp1 <;> rcases hmem_split q hq with hq1 | hq1
        · exact h3 p hp1 q hq1 hpq hne
        · exfalso
          subst hq1
          simp only at hpq
          exact hoval (List.mem_map.mpr ⟨p, hp1, hpq⟩)
        · exfalso
          subst hp1
          simp only at hpq
          exact hoval (List.mem_map.mpr ⟨q, hq1, hpq.symm⟩)
        · exfalso
          subst hp1
          subst hq1
          exact hne rfl
      · exact h4.erase c.1
      · intro k hk
        have hk1 := List.mem_of_mem_erase hk
        have hkne : k ≠ c.1 := ((List.Nodup.mem_erase_iff h4).mp hk).1
        rw [hins, List.map_append]
        simp only [List.map_cons, List.map_nil]
        intro hmem
        rcases List.mem_append.mp hmem with h | h
        · exact h5 k hk1 h
        · exact hkne (List.mem_singleton.mp h)
      · intro o' ho'
        have hne : o' ≠ o := by
          intro heq
          subst heq
          exact (List.nodup_cons.mp h6).1 ho'
        rw [hins, List.map_append]
        simp only [List.map_cons, List.map_nil]
        intro hmem
        rcases List.mem_append.mp hmem with h | h
        · exact h7 o' (List.mem_cons_of_mem o ho') h
        · exact hne (List.mem_singleton.mp h)
      · intro o' ho'
        exact h8 o' (List.mem_cons_of_mem o ho')

/-- Claim C2, as stated, is false: when two current titles are both
case-variants of one previous title, the case-rename double loop maps both
of them to it, so one old title is the value of two different keys and is
consumed by two case-rename pairings. -/
theorem claim_C2_counterexample :
    detect_renamed_sections ["AB".toList] ["ab".toList, "Ab".toList] =
      [("ab".toList, "AB".toList), ("Ab".toList, "AB".toList)] ∧
    ("ab".toList, "AB".toList) ∈
      detect_renamed_sections ["AB".toList] ["ab".toList, "Ab".toList] ∧
    ("Ab".toList, "AB".toList) ∈
      detect_renamed_sections ["AB".toList] ["ab".toList, "Ab".toList] ∧
    "ab".toList ≠ "Ab".toList := by
  refine ⟨by decide, by decide, by decide, by decide⟩

/-- Claim C2, amended: for any two duplicate-free title lists, the
`renamedMap` returned by `detect_renamed_sections` has pairwise-distinct
keys, every value is drawn from the previous titles minus the exact
matches, and any two distinct keys sharing a value are case-variants of it
(the value-injectivity asserted by the original claim holds except when
several current titles differ from one old title only in case). -/
theorem claim_C2 (prev_sections curr_sections : List Str)
    (hp : prev_sections.Nodup) (hc : curr_sections.Nodup) :
    (((detect_renamed_sections prev_sections curr_sections).map Prod.fst).Nodup) ∧
    (∀ p ∈ detect_renamed_sections prev_sections curr_sections,
      p.2 ∈ prev_sections ∧ p.2 ∉ exactMatches prev_sections curr_sections) ∧
    (∀ p ∈ detect_renamed_sections prev_sections curr_sections,
      ∀ q ∈ detect_renamed_sections prev_sections curr_sections,
      p.2 = q.2 → p.1 ≠ q.1 →
      strLower p.1 = strLower p.2 ∧ strLower q.1 = strLower q.2) := by
  obtain ⟨hkey, hmem⟩ := caseRenames_inv prev_sections curr_sections
  unfold detect_renamed_sections
  rw [caseRenames2_eq]
  refine simFold_inv prev_sections (exactMatches prev_sections curr_sections)
    _ _ hkey ?_ ?_ (hc.filter _) ?_ (hp.filter _) ?_ ?_
  · intro p hp'
    exact (hmem p hp').2.1
  · intro p hp' q hq' _ _
    exact ⟨(hmem p hp').2.2, (hmem q hq').2.2⟩
  · intro k hk
    have := List.mem_filter.mp hk
    simp only [Bool.and_eq_true, decide_eq_true_eq] at this
    exact this.2.2
  · intro o ho
    have := List.mem_filter.mp ho
    simp only [Bool.and_eq_true, decide_eq_true_eq] at this
    exact this.2.2
  · intro o ho
    have := List.mem_filter.mp ho
    simp only [Bool.and_eq_true, decide_eq_true_eq] at this
    exact ⟨this.1, this.2.1⟩

/-- Witness for the amended claim C2 at a concrete input (the spec's
scenario 3). -/
theorem claim_C2_witness :
    (((detect_renamed_sections ["History".toList, "Uses".toList]
        ["history".toList, "Applications".toList]).map Prod.fst).Nodup) ∧
    (∀ p ∈ detect_renamed_sections ["History".toList, "Uses".toList]
        ["history".toList, "Applications".toList],
      p.2 ∈ ["History".toList, "Uses".toList] ∧
      p.2 ∉ exactMatches ["History".toList, "Uses".toList]
        ["history".toList, "Applications".toList]) ∧
    (∀ p ∈ detect_renamed_sections ["History".toList, "Uses".toList]
        ["history".toList, "Applications".toList],
      ∀ q ∈ detect_renamed_sections ["History".toList, "Uses".toList]
        ["history".toList, "Applications".toList],
      p.2 = q.2 → p.1 ≠ q.1 →
      strLower p.1 = strLower p.2 ∧ strLower q.1 = strLower q.2) :=
  claim_C2 ["History".toList, "Uses".toList]
    ["history".toList, "Applications".toList] (by decide) (by decide)

/-! ## Claims about the Temporal Assembler -/

/-- With no previous snapshot and an empty rename map, annotation marks a
section as new. -/
theorem annotateSection_none_isNew (s : Section) :
    (annotateSection none [] s).isNew = true := by
  simp [annotateSection, dictGet]

/-- Claim C4, as stated, is false on the code for the empty-parse half: a
revision whose text yields no sections at all is still processed and
retained.  Here the single revision's content parses to an empty outline,
yet the yearly history contains an entry for it (with empty sections), and
the previous-state has been updated. -/
theorem claim_C4_counterexample :
    extract_toc "just plain text".toList = [] ∧
    (process_revision_history .yearly 5 2010 2030
      (fun rid => if rid = 1 then some "just plain text".toList else none)
      [{ ts := { year := 2015, month := 1, day := 1, tsec := 0 }, revid := 1 }]).map
        Prod.fst = [HKey.year 2015] ∧
    (process_revision_history .yearly 5 2010 2030
      (fun rid => if rid = 1 then some "just plain text".toList else none)
      [{ ts := { year := 2015, month := 1, day := 1, tsec := 0 }, revid := 1 }]).all
        (fun p => match p.2 with
          | HVal.snap d => d.sections.isEmpty
          | HVal.meta _ => true) = true := by
  refine ⟨by decide, by decide, by decide⟩

/-- Claim C4, amended: a snapshot whose upstream fetch yields no content
(`None` or an empty string, both falsy) is skipped entirely — it changes
nothing of the state, so it contributes no snapshot and leaves the
"previous" state untouched.  A snapshot whose content parses to an empty
outline, however, is not skipped: it is processed normally (see the
counterexample). -/
theorem claim_C4 (mode : Mode) (significance_threshold : ℚ)
    (start_year end_year : Int) (oracle : Nat → Option Str)
    (st : RunState) (rev : Revision)
    (h : oracle rev.revid = none ∨ oracle rev.revid = some []) :
    processStep mode significance_threshold start_year end_year oracle st rev
      = st := by
  unfold processStep
  by_cases h1 : rev.ts.year < start_year ∨ end_year < rev.ts.year
  · rw [if_pos h1]
  · rw [if_neg h1]
    by_cases h2 : mode = Mode.yearly ∧ rev.ts.year ∈ st.yearsProcessed
    · rw [if_pos h2]
    · rw [if_neg h2]
      rcases h with h | h
      · rw [h]
      · rw [h]
        simp [List.isEmpty]

/-- Witness for the amended claim C4 at a concrete input. -/
theorem claim_C4_witness :
    processStep .yearly 5 2010 2030 (fun _ => none)
      ⟨[], [], none, none, []⟩
      { ts := { year := 2015, month := 1, day := 1, tsec := 0 }, revid := 7 }
      = ⟨[], [], none, none, []⟩ :=
  claim_C4 .yearly 5 2010 2030 (fun _ => none) ⟨[], [], none, none, []⟩
    { ts := { year := 2015, month := 1, day := 1, tsec := 0 }, revid := 7 }
    (Or.inl rfl)

/-- Claim C10, confirmed: when there is no previous retained snapshot, a
step of `process_revision_history` either stores nothing or stores a
snapshot every section of which is annotated `isNew = True` (the rename
map is empty when `previous_sections` is `None`, so the else-branch fires
for every section). -/
theorem claim_C10 (mode : Mode) (significance_threshold : ℚ)
    (start_year end_year : Int) (oracle : Nat → Option Str)
    (st : RunState) (rev : Revision)
    (hprev : st.previousSections = none) :
    (processStep mode significance_threshold start_year end_year oracle st
      rev).toc = st.toc ∨
    ∃ k d, (processStep mode significance_threshold start_year end_year oracle
        st rev).toc = hInsert st.toc k (HVal.snap d) ∧
      ∀ s ∈ d.sections, s.isNew = true := by
  simp only [processStep]
  by_cases h1 : rev.ts.year < start_year ∨ end_year < rev.ts.year
  · rw [if_pos h1]; exact Or.inl rfl
  · rw [if_neg h1]
    by_cases h2 : mode = Mode.yearly ∧ rev.ts.year ∈ st.yearsProcessed
    · rw [if_pos h2]; exact Or.inl rfl
    · rw [if_neg h2]
      split
      · exact Or.inl rfl
      · rename_i content heq
        by_cases h3 : List.isEmpty content = true
        · rw [if_pos h3]; exact Or.inl rfl
        · rw [if_neg h3]
          split
          · split
            · exact Or.inl rfl
            · right
              refine ⟨_, _, rfl, ?_⟩
              intro s hs
              simp only [storeSnap, hprev] at hs
              rw [List.mem_map] at hs
              obtain ⟨s0, _, h0⟩ := hs
              rw [← h0]
              exact annotateSection_none_isNew s0
          · split
            · right
              refine ⟨_, _, rfl, ?_⟩
              intro s hs
              simp only [storeSnap, hprev] at hs
              rw [List.mem_map] at hs
              obtain ⟨s0, _, h0⟩ := hs
              rw [← h0]
              exact annotateSection_none_isNew s0
            · exact Or.inl rfl

/-- Witness for claim C10 at a concrete input: the very first retained
revision of a run has every section marked new. -/
theorem claim_C10_witness :
    (processStep .yearly 5 2010 2030
      (fun rid => if rid = 1 then some "==A==\n==B==".toList else none)
      ⟨[], [], none, none, []⟩
      { ts := { year := 2015, month := 1, day := 1, tsec := 0 }, revid := 1 }).toc
      = (⟨[], [], none, none, []⟩ : RunState).toc ∨
    ∃ k d, (processStep .yearly 5 2010 2030
      (fun rid => if rid = 1 then some "==A==\n==B==".toList else none)
      ⟨[], [], none, none, []⟩
      { ts := { year := 2015, month := 1, day := 1, tsec := 0 }, revid := 1 }).toc
        = hInsert (⟨[], [], none, none, []⟩ : RunState).toc k (HVal.snap d) ∧
      ∀ s ∈ d.sections, s.isNew = true :=
  claim_C10 .yearly 5 2010 2030
    (fun rid => if rid = 1 then some "==A==\n==B==".toList else none)
    ⟨[], [], none, none, []⟩
    { ts := { year := 2015, month := 1, day := 1, tsec := 0 }, revid := 1 } rfl

/-- An element of an updated history dict is the new binding or an old
binding at a different key. -/
theorem mem_hInsert {h : List (HKey × HVal)} {k : HKey} {v : HVal}
    {p : HKey × HVal} (hp : p ∈ hInsert h k v) :
    p = (k, v) ∨ (p ∈ h ∧ p.1 ≠ k) := by
  unfold hInsert at hp
  split at hp
  · rw [List.mem_map] at hp
    obtain ⟨q, hq, hfq⟩ := hp
    by_cases hk : q.1 = k
    · rw [if_pos hk] at hfq
      exact Or.inl hfq.symm
    · rw [if_neg hk] at hfq
      exact Or.inr ⟨hfq ▸ hq, hfq ▸ hk⟩
  · rename_i hany
    rcases List.mem_append.mp hp with h1 | h1
    · refine Or.inr ⟨h1, ?_⟩
      intro hk
      exact hany (List.any_eq_true.mpr ⟨p, h1, by simp [hk]⟩)
    · exact Or.inl (List.mem_singleton.mp h1)

/-- Assigning to a fresh history key appends the binding. -/
theorem hInsert_fresh {h : List (HKey × HVal)} {k : HKey}
    (hf : k ∉ h.map Prod.fst) (v : HVal) : hInsert h k v = h ++ [(k, v)] := by
  unfold hInsert
  rw [if_neg]
  intro hany
  rw [List.any_eq_true] at hany
  obtain ⟨q, hq, hqk⟩ := hany
  exact hf (List.mem_map.mpr ⟨q, hq, by simpa using hqk⟩)

/-- Assigning to an existing history key keeps the key list unchanged. -/
theorem hInsert_keys_of_mem {h : List (HKey × HVal)} {k : HKey} {v : HVal}
    (hk : k ∈ h.map Prod.fst) :
    (hInsert h k v).map Prod.fst = h.map Prod.fst := by
  unfold hInsert
  rw [if_pos]
  · rw [List.map_map]
    refine List.map_congr_left ?_
    intro q _
    by_cases hq : q.1 = k
    · simp [hq]
    · simp [hq]
  · rw [List.mem_map] at hk
    obtain ⟨q, hq, hqk⟩ := hk
    exact List.any_eq_true.mpr ⟨q, hq, by simp [hqk]⟩

/-- Time order gives year order. -/
theorem TS.le_year {a b : TS} (h : TS.le a b) : a.year ≤ b.year := by
  unfold TS.le at h
  rcases h with h | ⟨h, _⟩
  · omega
  · omega

/-- Time order gives date order. -/
theorem TS.le_date {a b : TS} (h : TS.le a b) : dateLE a.year a.month a.day b := by
  unfold TS.le at h
  unfold dateLE
  rcases h with h | ⟨h1, h2 | ⟨h2, h3 | ⟨h3, _⟩⟩⟩
  · exact Or.inl h
  · exact Or.inr ⟨h1, Or.inl h2⟩
  · exact Or.inr ⟨h1, Or.inr ⟨h2, Nat.le_of_lt h3⟩⟩
  · exact Or.inr ⟨h1, Or.inr ⟨h2, Nat.le_of_eq h3⟩⟩

/-- A date bounded by a timestamp and different from its calendar date is
strictly earlier. -/
theorem dateLE_ne_lt {y1 : Int} {m1 d1 : Nat} {t : TS}
    (h : dateLE y1 m1 d1 t) (hne : ¬(y1 = t.year ∧ m1 = t.month ∧ d1 = t.day)) :
    keyLT (HKey.date y1 m1 d1) (HKey.date t.year t.month t.day) := by
  unfold dateLE at h
  unfold keyLT
  rcases h with h | ⟨h1, h2 | ⟨h2, h3⟩⟩
  · exact Or.inl h
  · exact Or.inr ⟨h1, Or.inl h2⟩
  · rcases Nat.lt_or_ge d1 t.day with h4 | h4
    · exact Or.inr ⟨h1, Or.inr ⟨h2, h4⟩⟩
    · exact absurd ⟨h1, h2, by omega⟩ hne

/-- The yearly-mode run keeps the history keys as strictly increasing year
keys, provided the remaining revisions are ordered and no earlier than
every stored key. -/
theorem yearly_run_inv (significance_threshold : ℚ) (start_year end_year : Int)
    (oracle : Nat → Option Str) :
    ∀ (revs : List Revision) (st : RunState),
      List.Pairwise (fun a b => TS.le a.ts b.ts) revs →
      List.Chain' keyLT (st.toc.map Prod.fst) →
      (∀ p ∈ st.toc, ∃ y, p.1 = HKey.year y ∧ y ∈ st.yearsProcessed ∧
        ∀ r ∈ revs, y ≤ r.ts.year) →
      List.Chain' keyLT
        (((revs.foldl (processStep .yearly significance_threshold start_year
          end_year oracle) st).toc).map Prod.fst) ∧
      (∀ p ∈ (revs.foldl (processStep .yearly significance_threshold start_year
          end_year oracle) st).toc, ∃ y, p.1 = HKey.year y) := by
  intro revs
  induction revs with
  | nil =>
    intro st _ hch hinv
    exact ⟨hch, fun p hp => ⟨(hinv p hp).choose, (hinv p hp).choose_spec.1⟩⟩
  | cons rev rest ih =>
    intro st hpw hch hinv
    rw [List.foldl_cons]
    have hpw' := List.pairwise_cons.mp hpw
    have hmain : List.Chain' keyLT
        ((processStep .yearly significance_threshold start_year end_year oracle
          st rev).toc.map Prod.fst) ∧
        (∀ p ∈ (processStep .yearly significance_threshold start_year end_year
          oracle st rev).toc, ∃ y, p.1 = HKey.year y ∧
          y ∈ (processStep .yearly significance_threshold start_year end_year
            oracle st rev).yearsProcessed ∧ ∀ r ∈ rest, y ≤ r.ts.year) := by
      simp only [processStep]
      split
      · exact ⟨hch, fun p hp => by
          obtain ⟨y, h1, h2, h3⟩ := hinv p hp
          exact ⟨y, h1, h2, fun r hr => h3 r (List.mem_cons_of_mem rev hr)⟩⟩
      · split
        · exact ⟨hch, fun p hp => by
            obtain ⟨y, h1, h2, h3⟩ := hinv p hp
            exact ⟨y, h1, h2, fun r hr => h3 r (List.mem_cons_of_mem rev hr)⟩⟩
        · split
          · exact ⟨hch, fun p hp => by
              obtain ⟨y, h1, h2, h3⟩ := hinv p hp
              exact ⟨y, h1, h2, fun r hr => h3 r (List.mem_cons_of_mem rev hr)⟩⟩
          · rename_i content heq
            split
            · exact ⟨hch, fun p hp => by
                obtain ⟨y, h1, h2, h3⟩ := hinv p hp
                exact ⟨y, h1, h2, fun r hr => h3 r (List.mem_cons_of_mem rev hr)⟩⟩
            · split
              · rename_i hyin
                exact ⟨hch, fun p hp => by
                  obtain ⟨y, h1, h2, h3⟩ := hinv p hp
                  exact ⟨y, h1, h2, fun r hr => h3 r (List.mem_cons_of_mem rev hr)⟩⟩
              · rename_i hynotin
                have hfresh : HKey.year rev.ts.year ∉ st.toc.map Prod.fst := by
                  intro hmem
                  rw [List.mem_map] at hmem
                  obtain ⟨p, hp, hpk⟩ := hmem
                  obtain ⟨y, h1, h2, _⟩ := hinv p hp
                  rw [h1] at hpk
                  have : y = rev.ts.year := by
                    injection hpk
                  exact hynotin (this ▸ h2)
                have htoc : (storeSnap { st with yearsProcessed :=
                    st.yearsProcessed ++ [rev.ts.year] } (HKey.year rev.ts.year)
                    rev (extract_toc content) (sectionTitles (extract_toc content))
                    (calculate_toc_change_significance
                      (secsToPy (extract_toc content))
                      (optSecsToPy st.prevSectionsData)).1
                    (calculate_toc_change_significance
                      (secsToPy (extract_toc content))
                      (optSecsToPy st.prevSectionsData)).2).toc =
                    st.toc ++ [(HKey.year rev.ts.year, _)] :=
                  hInsert_fresh hfresh _
                constructor
                · rw [htoc, List.map_append]
                  simp only [List.map_cons, List.map_nil]
                  rw [List.chain'_append]
                  refine ⟨hch, List.chain'_singleton _, ?_⟩
                  intro x hx y' hy'
                  simp only [List.head?_cons, Option.mem_def, Option.some.injEq] at hy'
                  subst hy'
                  have hxmem : x ∈ st.toc.map Prod.fst :=
                    List.mem_of_mem_getLast? hx
                  rw [List.mem_map] at hxmem
                  obtain ⟨p, hp, hpk⟩ := hxmem
                  obtain ⟨y0, h1, h2, h3⟩ := hinv p hp
                  have hy0 : y0 ≤ rev.ts.year := h3 rev (List.mem_cons_self rev rest)
                  have hy0ne : y0 ≠ rev.ts.year := by
                    intro hcon
                    exact hynotin (hcon ▸ h2)
                  rw [← hpk, h1]
                  unfold keyLT
                  omega
                · intro p hp
                  rw [htoc] at hp
                  rcases List.mem_append.mp hp with h1 | h1
                  · obtain ⟨y, hy1, hy2, hy3⟩ := hinv p h1
                    refine ⟨y, hy1, ?_, ?_⟩
                    · show y ∈ st.yearsProcessed ++ [rev.ts.year]
                      exact List.mem_append_left _ hy2
                    · intro r hr
                      exact hy3 r (List.mem_cons_of_mem rev hr)
                  · rw [List.mem_singleton] at h1
                    refine ⟨rev.ts.year, by rw [h1], ?_, ?_⟩
                    · show rev.ts.year ∈ st.yearsProcessed ++ [rev.ts.year]
                      exact List.mem_append_right _ (List.mem_singleton.mpr rfl)
                    · intro r hr
                      exact TS.le_year (hpw'.1 r hr)
    exact ih _ hpw'.2 hmain.1 hmain.2

/-- The significant-mode run keeps the history keys as strictly increasing
date keys, provided the remaining revisions are ordered and no earlier than
every stored key. -/
theorem significant_run_inv (significance_threshold : ℚ)
    (start_year end_year : Int) (oracle : Nat → Option Str) :
    ∀ (revs : List Revision) (st : RunState),
      List.Pairwise (fun a b => TS.le a.ts b.ts) revs →
      List.Chain' keyLT (st.toc.map Prod.fst) →
      (∀ p ∈ st.toc, ∃ y m d, p.1 = HKey.date y m d ∧
        ∀ r ∈ revs, dateLE y m d r.ts) →
      List.Chain' keyLT
        (((revs.foldl (processStep .significant significance_threshold
          start_year end_year oracle) st).toc).map Prod.fst) ∧
      (∀ p ∈ (revs.foldl (processStep .significant significance_threshold
          start_year end_year oracle) st).toc, ∃ y m d, p.1 = HKey.date y m d) := by
  intro revs
  induction revs with
  | nil =>
    intro st _ hch hinv
    refine ⟨hch, fun p hp => ?_⟩
    obtain ⟨y, m, d, h1, _⟩ := hinv p hp
    exact ⟨y, m, d, h1⟩
  | cons rev rest ih =>
    intro st hpw hch hinv
    rw [List.foldl_cons]
    have hpw' := List.pairwise_cons.mp hpw
    have hskip : ∀ p ∈ st.toc, ∃ y m d, p.1 = HKey.date y m d ∧
        ∀ r ∈ rest, dateLE y m d r.ts := by
      intro p hp
      obtain ⟨y, m, d, h1, h2⟩ := hinv p hp
      exact ⟨y, m, d, h1, fun r hr => h2 r (List.mem_cons_of_mem rev hr)⟩
    have hmain : List.Chain' keyLT
        ((processStep .significant significance_threshold start_year end_year
          oracle st rev).toc.map Prod.fst) ∧
        (∀ p ∈ (processStep .significant significance_threshold start_year
          end_year oracle st rev).toc, ∃ y m d, p.1 = HKey.date y m d ∧
          ∀ r ∈ rest, dateLE y m d r.ts) := by
      simp only [processStep]
      split
      · exact ⟨hch, hskip⟩
      · split
        · exact ⟨hch, hskip⟩
        · split
          · exact ⟨hch, hskip⟩
          · rename_i content heq
            split
            · exact ⟨hch, hskip⟩
            · split
              · have htoc : (storeSnap { st with significantRevisions :=
                    st.significantRevisions ++
                      [{ dateY := rev.ts.year, dateM := rev.ts.month,
                         dateD := rev.ts.day,
                         significance := (calculate_toc_change_significance
                           (secsToPy (extract_toc content))
                           (optSecsToPy st.prevSectionsData)).1,
                         summary := (calculate_toc_change_significance
                           (secsToPy (extract_toc content))
                           (optSecsToPy st.prevSectionsData)).2,
                         revid := rev.revid }] }
                    (HKey.date rev.ts.year rev.ts.month rev.ts.day) rev
                    (extract_toc content) (sectionTitles (extract_toc content))
                    (calculate_toc_change_significance
                      (secsToPy (extract_toc content))
                      (optSecsToPy st.prevSectionsData)).1
                    (calculate_toc_change_significance
                      (secsToPy (extract_toc content))
                      (optSecsToPy st.prevSectionsData)).2).toc =
                    hInsert st.toc (HKey.date rev.ts.year rev.ts.month
                      rev.ts.day) (.snap _) := rfl
                constructor
                · rw [htoc]
                  by_cases hk : HKey.date rev.ts.year rev.ts.month rev.ts.day ∈
                      st.toc.map Prod.fst
                  · rw [hInsert_keys_of_mem hk]
                    exact hch
                  · rw [hInsert_fresh hk, List.map_append]
                    simp only [List.map_cons, List.map_nil]
                    rw [List.chain'_append]
                    refine ⟨hch, List.chain'_singleton _, ?_⟩
                    intro x hx y' hy'
                    simp only [List.head?_cons, Option.mem_def,
                      Option.some.injEq] at hy'
                    subst hy'
                    have hxmem0 : x ∈ st.toc.map Prod.fst :=
                      List.mem_of_mem_getLast? hx
                    have hxmem := hxmem0
                    rw [List.mem_map] at hxmem
                    obtain ⟨p, hp, hpk⟩ := hxmem
                    obtain ⟨y0, m0, d0, h1, h2⟩ := hinv p hp
                    have hle : dateLE y0 m0 d0 rev.ts :=
                      h2 rev (List.mem_cons_self rev rest)
                    have hne : ¬(y0 = rev.ts.year ∧ m0 = rev.ts.month ∧
                        d0 = rev.ts.day) := by
                      rintro ⟨e1, e2, e3⟩
                      apply hk
                      rw [← e1, ← e2, ← e3, ← h1, hpk]
                      exact hxmem0
                    rw [← hpk, h1]
                    exact dateLE_ne_lt hle hne
                · intro p hp
                  rw [htoc] at hp
                  rcases mem_hInsert hp with h1 | ⟨h1, _⟩
                  · refine ⟨rev.ts.year, rev.ts.month, rev.ts.day,
                      by rw [h1], ?_⟩
                    intro r hr
                    exact TS.le_date (hpw'.1 r hr)
                  · exact hskip p h1
              · exact ⟨hch, hskip⟩
    refine (ih _ hpw'.2 hmain.1 ?_).imp id ?_
    · intro p hp
      obtain ⟨y, m, d, h1, h2⟩ := hmain.2 p hp
      exact ⟨y, m, d, h1, h2⟩
    · exact id

/-- Claim C9, as stated, is false on the code for significant mode: the
returned history is not purely a time-keyed mapping, because a trailing
`_metadata` entry (not a snapshot, not a time key) is appended after the
date-keyed snapshots.  Here a one-revision significant run produces the
keys `[date 2015-1-1, _metadata]`. -/
theorem claim_C9_counterexample :
    (process_revision_history .significant 5 2010 2030
      (fun rid => if rid = 1 then some "==A==".toList else none)
      [{ ts := { year := 2015, month := 1, day := 1, tsec := 0 }, revid := 1 }]).map
        Prod.fst = [HKey.date 2015 1 1, HKey.metadata] ∧
    ¬(∀ k ∈ (process_revision_history .significant 5 2010 2030
      (fun rid => if rid = 1 then some "==A==".toList else none)
      [{ ts := { year := 2015, month := 1, day := 1, tsec := 0 }, revid := 1 }]).map
        Prod.fst, (∃ y, k = HKey.year y) ∨ (∃ y m d, k = HKey.date y m d)) := by
  have hmap : (process_revision_history .significant 5 2010 2030
      (fun rid => if rid = 1 then some "==A==".toList else none)
      [{ ts := { year := 2015, month := 1, day := 1, tsec := 0 }, revid := 1 }]).map
        Prod.fst = [HKey.date 2015 1 1, HKey.metadata] := by decide
  refine ⟨hmap, ?_⟩
  intro hall
  have h2 := hall HKey.metadata (by rw [hmap]; simp)
  rcases h2 with ⟨y, hy⟩ | ⟨y, m, d, hy⟩
  · exact HKey.noConfusion hy
  · exact HKey.noConfusion hy

/-- Claim C9, amended: provided the input revisions are ordered newest
first, the time keys of the returned history strictly increase.  In yearly
mode every key is a year key and the whole key list is strictly increasing;
in significant mode the history is a strictly increasing run of date keys
followed by one trailing `_metadata` entry (so the history is not purely a
snapshot mapping, see the counterexample). -/
theorem claim_C9 (mode : Mode) (significance_threshold : ℚ)
    (start_year end_year : Int) (oracle : Nat → Option Str)
    (revisions : List Revision)
    (hsort : List.Pairwise (fun a b => TS.le a.ts b.ts) revisions.reverse) :
    (mode = Mode.yearly →
      List.Chain' keyLT ((process_revision_history mode significance_threshold
        start_year end_year oracle revisions).map Prod.fst) ∧
      ∀ p ∈ process_revision_history mode significance_threshold start_year
        end_year oracle revisions, ∃ y, p.1 = HKey.year y) ∧
    (mode = Mode.significant →
      ∃ front ms, process_revision_history mode significance_threshold
        start_year end_year oracle revisions =
        front ++ [(HKey.metadata, HVal.meta ms)] ∧
      List.Chain' keyLT (front.map Prod.fst) ∧
      ∀ p ∈ front, ∃ y m d, p.1 = HKey.date y m d) := by
  constructor
  · intro hm
    subst hm
    have h := yearly_run_inv significance_threshold start_year end_year oracle
      revisions.reverse ⟨[], [], none, none, []⟩ hsort (by simp)
      (by intro p hp; simp at hp)
    exact h
  · intro hm
    subst hm
    have h := significant_run_inv significance_threshold start_year end_year
      oracle revisions.reverse ⟨[], [], none, none, []⟩ hsort (by simp)
      (by intro p hp; simp at hp)
    refine ⟨(revisions.reverse.foldl (processStep .significant
        significance_threshold start_year end_year oracle)
        ⟨[], [], none, none, []⟩).toc,
      (revisions.reverse.foldl (processStep .significant
        significance_threshold start_year end_year oracle)
        ⟨[], [], none, none, []⟩).significantRevisions, ?_, h.1, h.2⟩
    show hInsert _ HKey.metadata _ = _
    apply hInsert_fresh
    intro hmem
    rw [List.mem_map] at hmem
    obtain ⟨p, hp, hpk⟩ := hmem
    obtain ⟨y, m, d, hd⟩ := h.2 p hp
    rw [hd] at hpk
    exact HKey.noConfusion hpk

/-- Witness for claim C9: a one-revision yearly run, ordered trivially,
yields a strictly increasing year-keyed history. -/
theorem claim_C9_witness :
    List.Chain' keyLT ((process_revision_history Mode.yearly 5 2010 2030
      (fun rid => if rid = 1 then some "==A==".toList else none)
      [{ ts := { year := 2015, month := 1, day := 1, tsec := 0 }, revid := 1 }]).map
        Prod.fst) ∧
    ∀ p ∈ process_revision_history Mode.yearly 5 2010 2030
      (fun rid => if rid = 1 then some "==A==".toList else none)
      [{ ts := { year := 2015, month := 1, day := 1, tsec := 0 }, revid := 1 }],
      ∃ y, p.1 = HKey.year y :=
  (claim_C9 Mode.yearly 5 2010 2030
    (fun rid => if rid = 1 then some "==A==".toList else none)
    [{ ts := { year := 2015, month := 1, day := 1, tsec := 0 }, revid := 1 }]
    (by simp)).1 rfl

/-- A significant-mode step with fetchable nonempty content inside the year
range that misses the retention test leaves the state unchanged. -/
theorem sigStep_skip (significance_threshold : ℚ) (start_year end_year : Int)
    (oracle : Nat → Option Str) (st : RunState) (rev : Revision) (content : Str)
    (hy : ¬(rev.ts.year < start_year ∨ end_year < rev.ts.year))
    (hc : oracle rev.revid = some content)
    (hnr : ¬(st.previousSections = none ∨ significance_threshold ≤
      (calculate_toc_change_significance (secsToPy (extract_toc content))
        (optSecsToPy st.prevSectionsData)).1)) :
    processStep .significant significance_threshold start_year end_year oracle
      st rev = st := by
  simp only [processStep]
  rw [if_neg hy]
  rw [if_neg (by simp)]
  split
  · rfl
  · rename_i c heq
    rw [hc] at heq
    injection heq with heq
    subst heq
    by_cases h3 : List.isEmpty content = true
    · rw [if_pos h3]
    · rw [if_neg h3]
      rw [if_neg hnr]

/-- A significant-mode step with fetchable nonempty content inside the year
range that passes the retention test stores the snapshot: the significance
and summary are computed against the previous *retained* snapshot held in
`prevSectionsData`. -/
theorem sigStep_store (significance_threshold : ℚ) (start_year end_year : Int)
    (oracle : Nat → Option Str) (st : RunState) (rev : Revision) (content : Str)
    (hy : ¬(rev.ts.year < start_year ∨ end_year < rev.ts.year))
    (hc : oracle rev.revid = some content)
    (hne : content.isEmpty = false)
    (hr : st.previousSections = none ∨ significance_threshold ≤
      (calculate_toc_change_significance (secsToPy (extract_toc content))
        (optSecsToPy st.prevSectionsData)).1) :
    processStep .significant significance_threshold start_year end_year oracle
      st rev =
    storeSnap
      { st with significantRevisions := st.significantRevisions ++
          [{ dateY := rev.ts.year, dateM := rev.ts.month,
             dateD := rev.ts.day,
             significance := (calculate_toc_change_significance
               (secsToPy (extract_toc content))
               (optSecsToPy st.prevSectionsData)).1,
             summary := (calculate_toc_change_significance
               (secsToPy (extract_toc content))
               (optSecsToPy st.prevSectionsData)).2,
             revid := rev.revid }] }
      (HKey.date rev.ts.year rev.ts.month rev.ts.day) rev
      (extract_toc content) (sectionTitles (extract_toc content))
      (calculate_toc_change_significance (secsToPy (extract_toc content))
        (optSecsToPy st.prevSectionsData)).1
      (calculate_toc_change_significance (secsToPy (extract_toc content))
        (optSecsToPy st.prevSectionsData)).2 := by
  simp only [processStep]
  rw [if_neg hy]
  rw [if_neg (by simp)]
  split
  · rename_i heq
    rw [hc] at heq
    exact Option.noConfusion heq
  · rename_i c heq
    rw [hc] at heq
    injection heq with heq
    subst heq
    rw [if_neg (by rw [hne]; exact Bool.false_ne_true)]
    rw [if_pos hr]

/-- Claim C3, as stated, is false on the code: the significance baseline is
the previous *retained* snapshot, not the immediately preceding *processed*
one.  In this three-revision run the middle revision is processed but not
retained (score 1 below threshold 3); the newest revision is then retained
with stored score 3 (computed against the first revision's sections),
although its score against the immediately preceding processed snapshot
(the middle revision) is only 2, below the threshold — under the claimed
rule it would not have been retained, and its stored score would be 2. -/
theorem claim_C3_counterexample :
    (process_revision_history .significant 3 2010 2030 orcC3 revsC3).map
      Prod.fst =
      [HKey.date 2020 1 1, HKey.date 2020 1 3, HKey.metadata] ∧
    (process_revision_history .significant 3 2010 2030 orcC3 revsC3).filterMap
      (fun p => match p with
        | (HKey.date _ _ _, HVal.snap d) => some d.significance
        | _ => none) = [10, 3] ∧
    (calculate_toc_change_significance
      (secsToPy (extract_toc "==A==\n==B==\n==C==\n==D==\n==E==".toList))
      (optSecsToPy (some (extract_toc "==A==\n==B==\n==C==".toList)))).1 = 2 ∧
    ¬((3 : ℚ) ≤ (calculate_toc_change_significance
      (secsToPy (extract_toc "==A==\n==B==\n==C==\n==D==\n==E==".toList))
      (optSecsToPy (some (extract_toc "==A==\n==B==\n==C==".toList)))).1) := by
  have hA : processStep .significant 3 2010 2030 orcC3 ⟨[], [], none, none, []⟩
      { ts := { year := 2020, month := 1, day := 1, tsec := 0 }, revid := 1 } =
      stA := rfl
  have hsig2 : (calculate_toc_change_significance
      (secsToPy (extract_toc "==A==\n==B==\n==C==".toList))
      (optSecsToPy stA.prevSectionsData)).1 = 1 := by
    have h : (calculate_toc_change_significance
        (secsToPy (extract_toc "==A==\n==B==\n==C==".toList))
        (optSecsToPy stA.prevSectionsData)).1 =
        min 10 ((((1 : Nat) : ℚ) * 2 + ((0 : Nat) : ℚ) * 3) / 2) := rfl
    rw [h, min_eq_right (by push_cast; norm_num)]
    push_cast
    norm_num
  have hB : processStep .significant 3 2010 2030 orcC3 stA
      { ts := { year := 2020, month := 1, day := 2, tsec := 0 }, revid := 2 } =
      stA := by
    apply sigStep_skip 3 2010 2030 orcC3 stA _ "==A==\n==B==\n==C==".toList
      (by decide) (by decide)
    intro hor
    rcases hor with h | h
    · exact Option.noConfusion h
    · rw [hsig2] at h
      norm_num at h
  have hsig3 : (calculate_toc_change_significance
      (secsToPy (extract_toc "==A==\n==B==\n==C==\n==D==\n==E==".toList))
      (optSecsToPy stA.prevSectionsData)).1 = 3 := by
    have h : (calculate_toc_change_significance
        (secsToPy (extract_toc "==A==\n==B==\n==C==\n==D==\n==E==".toList))
        (optSecsToPy stA.prevSectionsData)).1 =
        min 10 ((((3 : Nat) : ℚ) * 2 + ((0 : Nat) : ℚ) * 3) / 2) := rfl
    rw [h, min_eq_right (by push_cast; norm_num)]
    push_cast
    norm_num
  have hC := sigStep_store 3 2010 2030 orcC3 stA
    { ts := { year := 2020, month := 1, day := 3, tsec := 0 }, revid := 3 }
    "==A==\n==B==\n==C==\n==D==\n==E==".toList
    (by decide) (by decide) (by decide) (Or.inr (by rw [hsig3]))
  have hrun : process_revision_history .significant 3 2010 2030 orcC3 revsC3 =
      hInsert (processStep .significant 3 2010 2030 orcC3 stA
          { ts := { year := 2020, month := 1, day := 3, tsec := 0 },
            revid := 3 }).toc
        HKey.metadata
        (HVal.meta (processStep .significant 3 2010 2030 orcC3 stA
          { ts := { year := 2020, month := 1, day := 3, tsec := 0 },
            revid := 3 }).significantRevisions) := by
    show hInsert (revsC3.reverse.foldl
        (processStep .significant 3 2010 2030 orcC3)
        ⟨[], [], none, none, []⟩).toc HKey.metadata
      (HVal.meta (revsC3.reverse.foldl
        (processStep .significant 3 2010 2030 orcC3)
        ⟨[], [], none, none, []⟩).significantRevisions) = _
    rw [show revsC3.reverse =
      [{ ts := { year := 2020, month := 1, day := 1, tsec := 0 }, revid := 1 },
       { ts := { year := 2020, month := 1, day := 2, tsec := 0 }, revid := 2 },
       { ts := { year := 2020, month := 1, day := 3, tsec := 0 }, revid := 3 }]
      from rfl]
    rw [List.foldl_cons, List.foldl_cons, List.foldl_cons, List.foldl_nil,
      hA, hB]
  have hspec : (calculate_toc_change_significance
      (secsToPy (extract_toc "==A==\n==B==\n==C==\n==D==\n==E==".toList))
      (optSecsToPy (some (extract_toc "==A==\n==B==\n==C==".toList)))).1 =
      2 := by
    have h : (calculate_toc_change_significance
        (secsToPy (extract_toc "==A==\n==B==\n==C==\n==D==\n==E==".toList))
        (optSecsToPy (some (extract_toc "==A==\n==B==\n==C==".toList)))).1 =
        min 10 ((((2 : Nat) : ℚ) * 2 + ((0 : Nat) : ℚ) * 3) / 2) := rfl
    rw [h, min_eq_right (by push_cast; norm_num)]
    push_cast
    norm_num
  refine ⟨?_, ?_, hspec, ?_⟩
  · rw [hrun, hC]
    rfl
  · rw [hrun, hC, hsig3]
    rfl
  · rw [hspec]
    norm_num

/-- Claim C3, amended: in significant mode, for a revision in the year
range whose content is fetchable and nonempty, the significance score used
for the retention threshold and stored on the retained snapshot is computed
against the previous *retained* snapshot (`prevSectionsData`, updated only
when a snapshot is stored) — not against the immediately preceding
processed snapshot.  Retention happens iff there is no previous retained
snapshot or that score meets the threshold; otherwise the state (including
the diff baseline) is unchanged. -/
theorem claim_C3 (significance_threshold : ℚ) (start_year end_year : Int)
    (oracle : Nat → Option Str) (st : RunState) (rev : Revision) (content : Str)
    (hy : ¬(rev.ts.year < start_year ∨ end_year < rev.ts.year))
    (hc : oracle rev.revid = some content)
    (hne : content.isEmpty = false) :
    (¬(st.previousSections = none ∨ significance_threshold ≤
        (calculate_toc_change_significance (secsToPy (extract_toc content))
          (optSecsToPy st.prevSectionsData)).1) →
      processStep .significant significance_threshold start_year end_year
        oracle st rev = st) ∧
    ((st.previousSections = none ∨ significance_threshold ≤
        (calculate_toc_change_significance (secsToPy (extract_toc content))
          (optSecsToPy st.prevSectionsData)).1) →
      ∃ d : SnapData,
        (processStep .significant significance_threshold start_year end_year
          oracle st rev).toc =
          hInsert st.toc (HKey.date rev.ts.year rev.ts.month rev.ts.day)
            (HVal.snap d) ∧
        d.significance = (calculate_toc_change_significance
          (secsToPy (extract_toc content))
          (optSecsToPy st.prevSectionsData)).1 ∧
        d.change_summary = (calculate_toc_change_significance
          (secsToPy (extract_toc content))
          (optSecsToPy st.prevSectionsData)).2 ∧
        (processStep .significant significance_threshold start_year end_year
          oracle st rev).prevSectionsData = some d.sections ∧
        (processStep .significant significance_threshold start_year end_year
          oracle st rev).previousSections =
          some (sectionTitles (extract_toc content))) := by
  constructor
  · intro hnr
    exact sigStep_skip significance_threshold start_year end_year oracle st
      rev content hy hc hnr
  · intro hr
    rw [sigStep_store significance_threshold start_year end_year oracle st
      rev content hy hc hne hr]
    exact ⟨_, rfl, rfl, rfl, rfl, rfl⟩

/-- Witness for claim C3 at a concrete first revision: with no previous
snapshot the retention condition holds and the snapshot is stored. -/
theorem claim_C3_witness :
    (¬((⟨[], [], none, none, []⟩ : RunState).previousSections = none ∨
        (5 : ℚ) ≤ (calculate_toc_change_significance
          (secsToPy (extract_toc "==A==".toList))
          (optSecsToPy (⟨[], [], none, none, []⟩ : RunState).prevSectionsData)).1) →
      processStep .significant 5 2010 2030
        (fun rid => if rid = 1 then some "==A==".toList else none)
        ⟨[], [], none, none, []⟩
        { ts := { year := 2015, month := 1, day := 1, tsec := 0 }, revid := 1 } =
        ⟨[], [], none, none, []⟩) ∧
    (((⟨[], [], none, none, []⟩ : RunState).previousSections = none ∨
        (5 : ℚ) ≤ (calculate_toc_change_significance
          (secsToPy (extract_toc "==A==".toList))
          (optSecsToPy (⟨[], [], none, none, []⟩ : RunState).prevSectionsData)).1) →
      ∃ d : SnapData,
        (processStep .significant 5 2010 2030
          (fun rid => if rid = 1 then some "==A==".toList else none)
          ⟨[], [], none, none, []⟩
          { ts := { year := 2015, month := 1, day := 1, tsec := 0 },
            revid := 1 }).toc =
          hInsert (⟨[], [], none, none, []⟩ : RunState).toc
            (HKey.date 2015 1 1) (HVal.snap d) ∧
        d.significance = (calculate_toc_change_significance
          (secsToPy (extract_toc "==A==".toList))
          (optSecsToPy (⟨[], [], none, none, []⟩ : RunState).prevSectionsData)).1 ∧
        d.change_summary = (calculate_toc_change_significance
          (secsToPy (extract_toc "==A==".toList))
          (optSecsToPy (⟨[], [], none, none, []⟩ : RunState).prevSectionsData)).2 ∧
        (processStep .significant 5 2010 2030
          (fun rid => if rid = 1 then some "==A==".toList else none)
          ⟨[], [], none, none, []⟩
          { ts := { year := 2015, month := 1, day := 1, tsec := 0 },
            revid := 1 }).prevSectionsData = some d.sections ∧
        (processStep .significant 5 2010 2030
          (fun rid => if rid = 1 then some "==A==".toList else none)
          ⟨[], [], none, none, []⟩
          { ts := { year := 2015, month := 1, day := 1, tsec := 0 },
            revid := 1 }).previousSections =
          some (sectionTitles (extract_toc "==A==".toList))) :=
  claim_C3 5 2010 2030
    (fun rid => if rid = 1 then some "==A==".toList else none)
    ⟨[], [], none, none, []⟩
    { ts := { year := 2015, month := 1, day := 1, tsec := 0 }, revid := 1 }
    "==A==".toList (by decide) (by decide) (by decide)

end WikiTOC
